import Mathlib

/-!
# Verification of the AgenticPageIndex Structure Assembly Pipeline

This file shallowly embeds the pure core of the pipeline (chunking,
offset calculation, index validation, tree assembly, batch scheduling,
JSON extraction) in Lean 4 and proves/refutes the frozen claims about it.

Python values are modelled explicitly where the code is dynamically
typed; machine integers are `Int`/`Nat` (Python integers are unbounded);
LLM ("oracle") calls and token counters are abstracted as function
parameters; fallible operations return `Option`/`Except`.
-/

namespace PageIndex

/-! ## Python string primitives

The source manipulates Python strings via `split`, `rstrip`, `strip`,
`startswith`, `int(...)`.  We model them on `List Char`. -/

/-- Python `str.split(sep)` for a one-character separator `sep`.
`''.split('_') = ['']`, and separators at the ends produce empty fields. -/
def pySplitChar (sep : Char) : List Char → List (List Char)
  | [] => [[]]
  | c :: rest =>
    let r := pySplitChar sep rest
    if c = sep then [] :: r
    else match r with
      | [] => [[c]]
      | f :: fs => (c :: f) :: fs

/-- Python `str.rstrip(ch)` for a single character: drop every trailing `ch`. -/
def pyRstripChar (ch : Char) (s : List Char) : List Char :=
  (s.reverse.dropWhile (· = ch)).reverse

/-- Python whitespace test (ASCII fragment; matches `str.strip()` /
`int()` tolerance for the inputs that occur here). -/
def pyIsWs (c : Char) : Bool :=
  c = ' ' ∨ c = '\t' ∨ c = '\n' ∨ c = '\r' ∨ c = '\x0b' ∨ c = '\x0c'

/-- Python `str.strip()`: remove leading and trailing whitespace. -/
def pyStrip (s : List Char) : List Char :=
  ((s.dropWhile pyIsWs).reverse.dropWhile pyIsWs).reverse

/-- Decimal digit run with the single-underscore-between-digits rule of
Python's `int()` grammar. Accumulates the value. -/
def pyDigits : List Char → Nat → Option Nat
  | [], acc => some acc
  | '_' :: c :: rest, acc =>
    if c.isDigit then pyDigits rest (acc * 10 + (c.toNat - 48)) else none
  | ['_'], _ => none
  | c :: rest, acc =>
    if c.isDigit then pyDigits rest (acc * 10 + (c.toNat - 48)) else none

/-- Nonempty digit run (first character must be a digit). -/
def pyDigitRun : List Char → Option Nat
  | [] => none
  | c :: rest =>
    if c.isDigit then pyDigits rest (c.toNat - 48) else none

/-- Python `int(s)` on a string: strip whitespace, optional sign, decimal
digits (underscore grouping allowed); `none` models `ValueError`. -/
def pyInt (s : List Char) : Option Int :=
  match pyStrip s with
  | '-' :: rest => (pyDigitRun rest).map (fun n => -(n : Int))
  | '+' :: rest => (pyDigitRun rest).map (fun n => (n : Int))
  | t => (pyDigitRun t).map (fun n => (n : Int))

/-- `pyInt` lifted to `String`. -/
def pyIntS (s : String) : Option Int := pyInt s.data

/-! ## Python values

`safe_int_conversion` receives dynamically typed data.  We model the
values it can see: `None`, an `int`, a `str`, or anything else. -/

inductive PyVal where
  | vNone : PyVal
  | vInt : Int → PyVal
  | vStr : String → PyVal
  | vOther : PyVal
  deriving DecidableEq, Repr

/-- The tag prefix `"<physical_index_"` as characters. -/
def tagPrefix : List Char := "<physical_index_".data

/-- `src/tools/structure_processor.py`, `safe_int_conversion`:
`None → None`; `int → itself`; a string starting with
`'<physical_index_'` is parsed as `int(s.split('_')[-1].rstrip('>').strip())`
(`None` on failure); any other string as `int(s)` (`None` on failure);
all other values give `None`. -/
def safe_int_conversion : PyVal → Option Int
  | .vNone => none
  | .vInt n => some n
  | .vStr s =>
    if tagPrefix.isPrefixOf s.data then
      pyInt (pyStrip (pyRstripChar '>' ((pySplitChar '_' s.data).getLastD [])))
    else
      pyInt s.data
  | .vOther => none

/-! ### Claim C10: specification-side definitions

`claimSpecC10` renders the claim's words, to be compared with
`safe_int_conversion` (the definition from the source): an integer is
returned unchanged; a string of the exact form `<physical_index_N>` with
integer literal `N` yields `N`; any other string yields its integer
parse when one exists and null otherwise; every remaining input yields
null. -/

/-- A plain decimal integer literal: optional `'-'`, then a nonempty
digit run. -/
def pyIntLit : List Char → Bool
  | [] => false
  | c :: ds =>
    if c = '-' then !ds.isEmpty && ds.all Char.isDigit
    else (c :: ds).all Char.isDigit

/-- The value of a well-formed `<physical_index_N>` tag (the claim's
"string of the form `'<physical_index_N>'` with integer N"), `none` if
the string is not of that form. -/
def tagFormVal (s : String) : Option Int :=
  if tagPrefix.isPrefixOf s.data ∧ s.data.getLast? = some '>'
      ∧ pyIntLit ((s.data.drop tagPrefix.length).dropLast) then
    pyInt ((s.data.drop tagPrefix.length).dropLast)
  else none

/-- The conversion the claim describes, rendered from its words. -/
def claimSpecC10 : PyVal → Option Int
  | .vNone => none
  | .vInt n => some n
  | .vStr s =>
    match tagFormVal s with
    | some n => some n
    | none => pyInt s.data
  | .vOther => none

/-! ### Lemmas about the Python string primitives -/

theorem pySplitChar_ne_nil (sep : Char) (cs : List Char) :
    pySplitChar sep cs ≠ [] := by
  induction cs with
  | nil => simp [pySplitChar]
  | cons c rest ih =>
    simp only [pySplitChar]
    by_cases h : c = sep
    · simp [h]
    · simp only [h, if_false]
      cases hr : pySplitChar sep rest with
      | nil => exact absurd hr ih
      | cons f fs => simp

theorem pySplitChar_no_sep (sep : Char) (cs : List Char)
    (h : sep ∉ cs) : pySplitChar sep cs = [cs] := by
  induction cs with
  | nil => rfl
  | cons c rest ih =>
    simp only [List.mem_cons, not_or] at h
    simp only [pySplitChar]
    rw [if_neg (fun hc => h.1 hc.symm), ih h.2]

theorem pySplitChar_two_le (sep : Char) (cs : List Char)
    (h : sep ∈ cs) : 2 ≤ (pySplitChar sep cs).length := by
  induction cs with
  | nil => simp at h
  | cons c rest ih =>
    simp only [pySplitChar]
    by_cases hc : c = sep
    · rw [if_pos hc, List.length_cons]
      have := List.length_pos.mpr (pySplitChar_ne_nil sep rest)
      omega
    · have hm : sep ∈ rest := by
        rcases List.mem_cons.mp h with h1 | h2
        · exact absurd h1.symm hc
        · exact h2
      rw [if_neg hc]
      cases hr : pySplitChar sep rest with
      | nil => exact absurd hr (pySplitChar_ne_nil sep rest)
      | cons f fs =>
        have := ih hm
        rw [hr] at this
        simpa using this

theorem pySplitChar_getLast?_append (sep : Char) (xs ys : List Char) :
    (pySplitChar sep (xs ++ sep :: ys)).getLast? =
      (pySplitChar sep ys).getLast? := by
  induction xs with
  | nil =>
    rw [List.nil_append]
    have hs : pySplitChar sep (sep :: ys) = [] :: pySplitChar sep ys := by
      simp [pySplitChar]
    rw [hs]
    cases hr : pySplitChar sep ys with
    | nil => exact absurd hr (pySplitChar_ne_nil sep ys)
    | cons f fs => rw [List.getLast?_cons_cons]
  | cons c xs ih =>
    rw [List.cons_append]
    simp only [pySplitChar]
    by_cases hc : c = sep
    · rw [if_pos hc]
      cases hr : pySplitChar sep (xs ++ sep :: ys) with
      | nil => exact absurd hr (pySplitChar_ne_nil sep _)
      | cons f fs =>
        rw [List.getLast?_cons_cons, ← hr, ih]
    · rw [if_neg hc]
      cases hr : pySplitChar sep (xs ++ sep :: ys) with
      | nil => exact absurd hr (pySplitChar_ne_nil sep _)
      | cons f fs =>
        have h2 : 2 ≤ (pySplitChar sep (xs ++ sep :: ys)).length :=
          pySplitChar_two_le sep _ (by simp)
        rw [hr] at h2
        cases fs with
        | nil => simp at h2
        | cons f' fs' =>
          rw [← ih, hr]
          simp [List.getLast?_cons_cons]

theorem pyRstripChar_append_same (ch : Char) (xs : List Char) :
    pyRstripChar ch (xs ++ [ch]) = pyRstripChar ch xs := by
  simp [pyRstripChar, List.dropWhile]

theorem pyRstripChar_no_strip (ch : Char) (cs : List Char)
    (h : cs.getLast? ≠ some ch) : pyRstripChar ch cs = cs := by
  unfold pyRstripChar
  cases hc : cs.reverse with
  | nil =>
    have : cs = [] := by simpa using congrArg List.reverse hc
    simp [this]
  | cons a t =>
    have ha : cs.getLast? = some a := by
      rw [← List.head?_reverse, hc]; rfl
    have : a ≠ ch := fun hac => h (hac ▸ ha)
    rw [List.dropWhile_cons_of_neg (by simpa using this)]
    rw [← hc, List.reverse_reverse]

theorem dropWhile_of_all_neg {p : Char → Bool} (l : List Char)
    (h : ∀ c ∈ l, p c = false) : l.dropWhile p = l := by
  cases l with
  | nil => rfl
  | cons a t =>
    rw [List.dropWhile_cons_of_neg]
    simp [h a (by simp)]

theorem pyStrip_no_ws (cs : List Char)
    (h : ∀ c ∈ cs, pyIsWs c = false) : pyStrip cs = cs := by
  unfold pyStrip
  rw [dropWhile_of_all_neg cs h,
    dropWhile_of_all_neg cs.reverse (fun c hc => h c (by simpa using hc)),
    List.reverse_reverse]

theorem pyIntLit_spec {cs : List Char} (h : pyIntLit cs = true) :
    cs ≠ [] ∧ (∀ c ∈ cs, c = '-' ∨ c.isDigit = true) ∧
      ∃ d, cs.getLast? = some d ∧ d.isDigit = true := by
  cases cs with
  | nil => simp [pyIntLit] at h
  | cons c ds =>
    simp only [pyIntLit] at h
    by_cases hc : c = '-'
    · rw [if_pos hc] at h
      have hds : ds ≠ [] ∧ ds.all Char.isDigit = true := by
        constructor
        · intro hnil
          rw [hnil] at h
          simp at h
        · exact (Bool.and_eq_true_iff.mp h).2
      refine ⟨by simp, ?_, ?_⟩
      · intro a ha
        rcases List.mem_cons.mp ha with h1 | h2
        · exact Or.inl (h1.trans hc)
        · exact Or.inr (List.all_eq_true.mp hds.2 _ h2)
      · refine ⟨ds.getLast hds.1, ?_, ?_⟩
        · rw [List.getLast?_cons, List.getLast?_eq_getLast ds hds.1]
          rfl
        · exact List.all_eq_true.mp hds.2 _ (List.getLast_mem hds.1)
    · rw [if_neg hc] at h
      refine ⟨by simp, ?_, ?_⟩
      · intro a ha
        exact Or.inr (List.all_eq_true.mp h _ ha)
      · refine ⟨(c :: ds).getLast (by simp), ?_, ?_⟩
        · exact List.getLast?_eq_getLast _ _
        · exact List.all_eq_true.mp h _ (List.getLast_mem _)

theorem pyIsWs_of_digit {c : Char} (h : c.isDigit = true) : pyIsWs c = false := by
  simp only [pyIsWs, decide_eq_false_iff_not]
  intro hc
  rcases hc with h1 | h1 | h1 | h1 | h1 | h1 <;> subst h1 <;> simp [Char.isDigit] at h

theorem ne_underscore_of_digit {c : Char} (h : c.isDigit = true) : c ≠ '_' := by
  intro hc
  subst hc
  simp [Char.isDigit] at h

theorem ne_gt_of_digit {c : Char} (h : c.isDigit = true) : c ≠ '>' := by
  intro hc
  subst hc
  simp [Char.isDigit] at h

/-- The key positive fact about the tag branch: on a well-formed
`<physical_index_N>` string the source's conversion recovers `N`. -/
theorem safe_int_conversion_tagFormVal {s : String} {n : Int}
    (h : tagFormVal s = some n) : safe_int_conversion (.vStr s) = some n := by
  unfold tagFormVal at h
  split at h
  case isFalse => exact absurd h (by simp)
  case isTrue hcond =>
    obtain ⟨hpre, hlast, hlit⟩ := hcond
    obtain ⟨t, ht⟩ := List.isPrefixOf_iff_prefix.mp hpre
    have hdrop : s.data.drop tagPrefix.length = t := by
      rw [← ht, List.drop_left]
    rw [hdrop] at h hlit
    have htne : t ≠ [] := by
      intro hnil
      rw [← ht, hnil, List.append_nil] at hlast
      simp [tagPrefix] at hlast
    have hlast' : t.getLast? = some '>' := by
      rw [← ht, List.getLast?_append_of_ne_nil _ htne] at hlast
      exact hlast
    have hmid : t.dropLast ++ ['>'] = t :=
      List.dropLast_append_getLast? '>' hlast'
    set mid := t.dropLast with hmiddef
    obtain ⟨hmne, hmchars, d, hd, hddig⟩ := pyIntLit_spec hlit
    have hnous : ∀ c ∈ mid ++ ['>'], c ≠ '_' := by
      intro c hc
      rcases List.mem_append.mp hc with h1 | h1
      · rcases hmchars c h1 with h2 | h2
        · subst h2; decide
        · exact ne_underscore_of_digit h2
      · simp at h1; subst h1; decide
    have hsdata : s.data = "<physical_index".data ++ '_' :: (mid ++ ['>']) := by
      rw [← ht, hmid]
      rfl
    -- the last underscore-separated component of s is mid ++ ['>']
    have hsplit : (pySplitChar '_' s.data).getLastD [] = mid ++ ['>'] := by
      rw [List.getLastD_eq_getLast?, hsdata, pySplitChar_getLast?_append,
        pySplitChar_no_sep _ _ (fun hmem => hnous _ hmem rfl)]
      rfl
    have hrstrip : pyRstripChar '>' (mid ++ ['>']) = mid := by
      rw [pyRstripChar_append_same]
      exact pyRstripChar_no_strip _ _ (by rw [hd]; intro hx; exact ne_gt_of_digit hddig (by injection hx))
    have hstrip : pyStrip mid = mid := by
      refine pyStrip_no_ws _ (fun c hc => ?_)
      rcases hmchars c hc with h2 | h2
      · subst h2; decide
      · exact pyIsWs_of_digit h2
    show (if tagPrefix.isPrefixOf s.data then _ else _) = _
    rw [if_pos hpre, hsplit, hrstrip, hstrip]
    exact h

/-- Claim C10, counterexample. The claim says any string not of the form
`<physical_index_N>` yields its integer parse when one exists and null
otherwise.  The string `"<physical_index_5"` (no closing `>`) is not of
that form and has no integer parse, so the claim demands null; the code
takes the tag branch on any `'<physical_index_'` prefix and returns `5`.
`claimSpecC10` renders the claim's words; it disagrees with the source's
`safe_int_conversion` at this input. -/
theorem C10_counterexample :
    safe_int_conversion (.vStr "<physical_index_5") = some 5 ∧
      claimSpecC10 (.vStr "<physical_index_5") = none ∧
      pyIntS "<physical_index_5" = none := by
  refine ⟨by decide, ?_, by decide⟩
  decide

/-- Claim C10 (amended): `safe_int_conversion` is total and returns an
integer or null, never raising; an integer input is returned unchanged; a
well-formed `'<physical_index_N>'` string yields `N`; more generally any
string starting with `'<physical_index_'` yields the Python integer parse
of its last underscore-separated component with trailing `'>'` stripped
and whitespace removed (null when that fails); any other string yields
its Python integer parse when one exists and null otherwise; every
remaining input (including null) yields null. -/
theorem C10_safe_int_conversion_amended :
    (∀ v, safe_int_conversion v = none ∨ ∃ n, safe_int_conversion v = some n)
    ∧ (∀ n : Int, safe_int_conversion (.vInt n) = some n)
    ∧ (∀ (s : String) (n : Int), tagFormVal s = some n →
        safe_int_conversion (.vStr s) = some n)
    ∧ (∀ s : String, tagPrefix.isPrefixOf s.data = true →
        safe_int_conversion (.vStr s) =
          pyInt (pyStrip (pyRstripChar '>' ((pySplitChar '_' s.data).getLastD []))))
    ∧ (∀ s : String, tagPrefix.isPrefixOf s.data = false →
        safe_int_conversion (.vStr s) = pyIntS s)
    ∧ safe_int_conversion .vNone = none ∧ safe_int_conversion .vOther = none := by
  refine ⟨?_, fun n => rfl, fun s n h => safe_int_conversion_tagFormVal h,
    fun s h => ?_, fun s h => ?_, rfl, rfl⟩
  · intro v
    cases hv : safe_int_conversion v with
    | none => exact Or.inl rfl
    | some n => exact Or.inr ⟨n, rfl⟩
  · show (if tagPrefix.isPrefixOf s.data then _ else _) = _
    rw [if_pos h]
  · show (if tagPrefix.isPrefixOf s.data then _ else _) = _
    rw [if_neg (by simp [h])]
    rfl

/-- Claim C10, witness: the amended theorem applied at concrete inputs,
covering the tag case, the plain-string case and the sentinel cases. -/
theorem C10_safe_int_conversion_amended_witness :
    safe_int_conversion (.vStr "<physical_index_12>") = some 12 ∧
      safe_int_conversion (.vStr " -7 ") = some (-7) := by
  constructor
  · exact C10_safe_int_conversion_amended.2.2.1 "<physical_index_12>" 12 (by decide)
  · have := C10_safe_int_conversion_amended.2.2.2.2.1 " -7 " (by decide)
    rw [this]
    decide

/-! ## The verifier stage (`src/tools/structure_verifier.py`)

At this stage an item's `physical_index` is an `int` or `None` (any other
value would raise `TypeError` in the `>` comparison of the source and is
outside the claims).  The oracle-driven accuracy measurement of
`verify_structure_accuracy` is abstracted as an input pair
(accuracy, incorrect items). -/

/-- A structure item as the verifier sees it. -/
structure VItem where
  title : String
  physical_index : Option Int
  deriving DecidableEq, Repr

/-- `src/tools/structure_verifier.py`, `validate_and_truncate_indices`:
walks the list; an item with a non-null `physical_index` larger than
`page_count` is NOT appended to the output (the source builds an
`item_copy` with `physical_index = None` but never appends it); every
other item is appended unchanged. -/
def validate_and_truncate_indices (structure_ : List VItem) (page_count : Int) :
    List VItem :=
  structure_.foldl (fun validated item =>
    match item.physical_index with
    | some idx =>
      if idx > page_count then
        validated
      else validated ++ [item]
    | none => validated ++ [item]) []

/-- The whole-tool outcome of `structure_verifier_tool`, keeping the
fields the claims talk about. -/
structure VerifierOutcome where
  success : Bool
  confidence : ℚ
  structure_verified : List VItem
  accuracy : ℚ
  incorrect_items : Nat
  deriving Repr

/-- `src/tools/structure_verifier.py`, `structure_verifier_tool`
(lines 21–104), with logging/checkpointing dropped and the oracle-driven
`verify_structure_accuracy` outcome abstracted as the input
`accuracy_result`.  After validation the code stores the validated list
and returns `confidence = 1.0`; `fix_structure_errors` is never called
and the configured threshold / `max_fix_attempts` are never read. -/
def structure_verifier_tool (pages : List (String × Nat))
    (structure_raw : List VItem) (accuracy_result : ℚ × List VItem) :
    VerifierOutcome :=
  if pages = [] then
    { success := false, confidence := 0, structure_verified := [],
      accuracy := 0, incorrect_items := 0 }
  else if structure_raw = [] then
    { success := false, confidence := 0, structure_verified := [],
      accuracy := 0, incorrect_items := 0 }
  else
    let validated := validate_and_truncate_indices structure_raw (pages.length : Int)
    let accuracy := accuracy_result.1
    let incorrect := accuracy_result.2
    { success := true, confidence := 1, structure_verified := validated,
      accuracy := accuracy, incorrect_items := incorrect.length }

theorem validate_foldl_filter (structure_ : List VItem) (page_count : Int)
    (acc : List VItem) :
    structure_.foldl (fun validated item =>
      match item.physical_index with
      | some idx =>
        if idx > page_count then validated
        else validated ++ [item]
      | none => validated ++ [item]) acc =
    acc ++ structure_.filter (fun item =>
      match item.physical_index with
      | some idx => idx ≤ page_count
      | none => true) := by
  induction structure_ generalizing acc with
  | nil => simp
  | cons item rest ih =>
    rw [List.foldl_cons, List.filter_cons]
    cases hpi : item.physical_index with
    | none => simp only [hpi, ih, List.append_assoc]; rfl
    | some idx =>
      by_cases hgt : idx > page_count
      · have : ¬ idx ≤ page_count := by omega
        simp only [hpi, if_pos hgt, ih]
        simp [this]
      · have : idx ≤ page_count := by omega
        simp only [hpi, if_neg hgt, ih]
        simp [this, List.append_assoc]

/-- Claim C1: the source violates the claim.  In general
`validate_and_truncate_indices` FILTERS OUT every item whose
`physical_index` exceeds the page count instead of keeping it with a null
index (the `item_copy` with the nulled index is built but never
appended); at the failing input `[{title := "Appendix",
physical_index := 5}]` with page count 3 the result is empty, while the
claim requires `[{title := "Appendix", physical_index := null}]`. -/
theorem C1_validate_and_truncate_drops_items :
    (∀ (structure_ : List VItem) (page_count : Int),
      validate_and_truncate_indices structure_ page_count =
        structure_.filter (fun item =>
          match item.physical_index with
          | some idx => idx ≤ page_count
          | none => true))
    ∧ validate_and_truncate_indices [⟨"Appendix", some 5⟩] 3 = []
    ∧ validate_and_truncate_indices [⟨"Appendix", some 5⟩] 3 ≠
        [⟨"Appendix", none⟩] := by
  refine ⟨fun structure_ page_count => ?_, by decide, by decide⟩
  unfold validate_and_truncate_indices
  rw [validate_foldl_filter]
  rfl

/-- Claim C6: the source violates the claim.  Whatever accuracy the
verification measured — in particular one below any configured threshold
— `structure_verifier_tool` performs no repair round (`fix_structure_errors`
is dead code), returns the validated structure unchanged, and reports
`confidence = 1.0` rather than any blend of pre/post-repair accuracy.
The repository's own test (`test_structure_verifier_with_errors`)
expects a `fix_structure_errors` call and a blended confidence of 0.8
for measured accuracy 0.7. -/
theorem C6_verifier_never_repairs (pages : List (String × Nat))
    (structure_raw : List VItem) (accuracy : ℚ) (incorrect : List VItem)
    (threshold : ℚ) (hp : pages ≠ []) (hs : structure_raw ≠ [])
    (hacc : accuracy < threshold) :
    (structure_verifier_tool pages structure_raw (accuracy, incorrect)).confidence = 1
    ∧ (structure_verifier_tool pages structure_raw (accuracy, incorrect)).structure_verified
        = validate_and_truncate_indices structure_raw (pages.length : Int)
    ∧ (structure_verifier_tool pages structure_raw (accuracy, incorrect)).success = true := by
  unfold structure_verifier_tool
  rw [if_neg hp, if_neg hs]
  exact ⟨rfl, rfl, rfl⟩

/-- Claim C6, witness: the failing input from the repository's own test
(accuracy 0.7 measured, threshold 0.6 < 0.7 would pass, so take
threshold 0.8): the tool still reports confidence 1.0. -/
theorem C6_verifier_never_repairs_witness :
    (structure_verifier_tool [("Introduction section content", 50)]
      [⟨"Introduction", some 1⟩] (7/10, [⟨"Methods", some 3⟩])).confidence = 1 := by
  have h := C6_verifier_never_repairs [("Introduction section content", 50)]
    [⟨"Introduction", some 1⟩] (7/10) [⟨"Methods", some 3⟩] (8/10)
    (by decide) (by decide) (by norm_num)
  exact h.1

/-! ## The tree assembler (`src/tools/structure_processor.py`)

Items reaching `build_tree_structure` are dicts with a dotted `structure`
index, a title, a `physical_index` (any Python value; the code converts
it with `safe_int_conversion`), and an `appear_start` flag set by
`check_section_starts` (possibly absent). -/

/-- An item entering `build_tree_structure`. -/
structure PItem where
  structure_ : Option String
  title : String
  physical_index : PyVal
  appear_start : Option String
  deriving DecidableEq, Repr

/-- The same item after `build_tree_structure`'s first loop added
`start_index` and `end_index`. -/
structure PItemOut where
  structure_ : Option String
  title : String
  physical_index : PyVal
  appear_start : Option String
  start_index : Option Int
  end_index : Option Int
  deriving DecidableEq, Repr

/-- `src/tools/structure_processor.py`, `build_tree_structure` lines
221–236: the loop that sets `start_index`/`end_index` on every item.
`start_index := safe_int_conversion physical_index`; for a non-last item
the end index comes from the next item's converted `physical_index`
(minus one only when the next item's `appear_start` is `'yes'`, verbatim
otherwise), falling back to the item's own `start_index` when the next
item has no page; the last item's `end_index` is the page count. -/
def assign_start_end : List PItem → Int → List PItemOut
  | [], _ => []
  | [item], total =>
    [⟨item.structure_, item.title, item.physical_index, item.appear_start,
      safe_int_conversion item.physical_index, some total⟩]
  | item :: next :: rest, total =>
    let start := safe_int_conversion item.physical_index
    let endIdx :=
      match safe_int_conversion next.physical_index with
      | some np => if next.appear_start = some "yes" then some (np - 1) else some np
      | none => start
    ⟨item.structure_, item.title, item.physical_index, item.appear_start,
      start, endIdx⟩ :: assign_start_end (next :: rest) total

theorem assign_start_end_cons_cons (x y : PItem) (rest : List PItem) (total : Int) :
    assign_start_end (x :: y :: rest) total =
      ⟨x.structure_, x.title, x.physical_index, x.appear_start,
        safe_int_conversion x.physical_index,
        match safe_int_conversion y.physical_index with
        | some np => if y.appear_start = some "yes" then some (np - 1) else some np
        | none => safe_int_conversion x.physical_index⟩ ::
        assign_start_end (y :: rest) total := rfl

theorem assign_start_end_length (items : List PItem) (total : Int) :
    (assign_start_end items total).length = items.length := by
  induction items with
  | nil => rfl
  | cons x rest ih =>
    cases rest with
    | nil => rfl
    | cons y rest' =>
      rw [assign_start_end_cons_cons, List.length_cons, List.length_cons, ih]

theorem assign_start_end_start (items : List PItem) (total : Int)
    (i : Nat) (h : i < items.length) :
    ((assign_start_end items total).get
        ⟨i, by rw [assign_start_end_length]; exact h⟩).start_index =
      safe_int_conversion (items.get ⟨i, h⟩).physical_index := by
  induction items generalizing i with
  | nil => exact absurd h (by simp)
  | cons x rest ih =>
    cases rest with
    | nil =>
      cases i with
      | zero => rfl
      | succ i' => exact absurd h (by simp)
    | cons y rest' =>
      cases i with
      | zero => rfl
      | succ i' =>
        have h' : i' < (y :: rest').length := by
          simpa using Nat.lt_of_succ_lt_succ h
        exact ih i' h'

theorem assign_start_end_mid (items : List PItem) (total : Int)
    (i : Nat) (h : i + 1 < items.length) :
    ((assign_start_end items total).get
        ⟨i, by rw [assign_start_end_length]; omega⟩).end_index =
      (match safe_int_conversion (items.get ⟨i + 1, h⟩).physical_index with
       | some np =>
         if (items.get ⟨i + 1, h⟩).appear_start = some "yes" then some (np - 1)
         else some np
       | none => safe_int_conversion (items.get ⟨i, by omega⟩).physical_index) := by
  induction items generalizing i with
  | nil => exact absurd h (by simp)
  | cons x rest ih =>
    cases rest with
    | nil => simp at h
    | cons y rest' =>
      cases i with
      | zero => rfl
      | succ i' =>
        have h' : i' + 1 < (y :: rest').length := by
          simpa using Nat.lt_of_succ_lt_succ h
        exact ih i' h'

theorem assign_start_end_last (items : List PItem) (total : Int)
    (h : items ≠ []) :
    ∃ out, (assign_start_end items total).getLast? = some out ∧
      out.end_index = some total := by
  induction items with
  | nil => exact absurd rfl h
  | cons x rest ih =>
    cases rest with
    | nil => exact ⟨_, rfl, rfl⟩
    | cons y rest' =>
      obtain ⟨out, ho, he⟩ := ih (by simp)
      have hne : assign_start_end (y :: rest') total ≠ [] := by
        intro hnil
        have := assign_start_end_length (y :: rest') total
        rw [hnil] at this
        simp at this
      obtain ⟨z, l', hzl⟩ := List.exists_cons_of_ne_nil hne
      refine ⟨out, ?_, he⟩
      rw [assign_start_end_cons_cons, hzl, List.getLast?_cons_cons, ← hzl, ho]

/-- Claim C3: in `build_tree_structure`, for every non-last item `i`,
`end_index i` is `physical_index (i+1) - 1` when item `i+1` is confirmed
to start its page (`appear_start = 'yes'`), `physical_index (i+1)`
unmodified when item `i+1` has a non-null (converted) `physical_index`
but is not so confirmed, and `start_index i` when item `i+1`'s
`physical_index` is null; the last item's `end_index` is the total page
count. -/
theorem C3_end_index_rule (items : List PItem) (total : Int) :
    (∀ (i : Nat) (h : i + 1 < items.length),
      ((assign_start_end items total).get
          ⟨i, by rw [assign_start_end_length]; omega⟩).end_index =
        match safe_int_conversion (items.get ⟨i + 1, h⟩).physical_index with
        | some np =>
          if (items.get ⟨i + 1, h⟩).appear_start = some "yes" then some (np - 1)
          else some np
        | none =>
          ((assign_start_end items total).get
            ⟨i, by rw [assign_start_end_length]; omega⟩).start_index)
    ∧ (items ≠ [] → ∃ out, (assign_start_end items total).getLast? = some out ∧
        out.end_index = some total) := by
  constructor
  · intro i h
    rw [assign_start_end_mid items total i h,
      assign_start_end_start items total i (by omega)]
  · exact assign_start_end_last items total

/-- Claim C3, witness: a three-item list over a 10-page document; the
first end index is `5 - 1` (next item confirmed at page start), the
second is the item's own start (next item's index is null), the last is
the page count. -/
theorem C3_end_index_rule_witness :
    ((assign_start_end
        [⟨some "1", "A", .vInt 2, some "yes"⟩,
         ⟨some "2", "B", .vInt 5, some "yes"⟩,
         ⟨some "3", "C", .vNone, none⟩] 10).get ⟨0, by decide⟩).end_index = some 4
    ∧ ((assign_start_end
        [⟨some "1", "A", .vInt 2, some "yes"⟩,
         ⟨some "2", "B", .vInt 5, some "yes"⟩,
         ⟨some "3", "C", .vNone, none⟩] 10).get ⟨1, by decide⟩).end_index = some 5
    ∧ (∃ out, (assign_start_end
        [⟨some "1", "A", .vInt 2, some "yes"⟩,
         ⟨some "2", "B", .vInt 5, some "yes"⟩,
         ⟨some "3", "C", .vNone, none⟩] 10).getLast? = some out ∧
        out.end_index = some 10) := by
  refine ⟨?_, ?_, ?_⟩
  · have h := (C3_end_index_rule
      [⟨some "1", "A", .vInt 2, some "yes"⟩,
       ⟨some "2", "B", .vInt 5, some "yes"⟩,
       ⟨some "3", "C", .vNone, none⟩] 10).1 0 (by decide)
    rw [h]
    decide
  · have h := (C3_end_index_rule
      [⟨some "1", "A", .vInt 2, some "yes"⟩,
       ⟨some "2", "B", .vInt 5, some "yes"⟩,
       ⟨some "3", "C", .vNone, none⟩] 10).1 1 (by decide)
    rw [h]
    decide
  · exact (C3_end_index_rule
      [⟨some "1", "A", .vInt 2, some "yes"⟩,
       ⟨some "2", "B", .vInt 5, some "yes"⟩,
       ⟨some "3", "C", .vNone, none⟩] 10).2 (by decide)

/-! ## `list_to_tree` (`src/tools/structure_processor.py`, lines 247–293)

The source builds Python dict NODES that are mutated in place: every
item's node is stored in `nodes[structure]` (later duplicates overwrite
the dict entry), and a node is appended either to
`nodes[parent_structure]['nodes']` — the node of the most recent earlier
item with that structure key — or to `root_nodes`.  Because the only
mutation is appending children, the final forest is fully determined by
the per-item parent decision made at insertion time.  We render that
decision as `parentIndex` (index of the adopting item, `none` for a
root) and materialise the forest bottom-up with `buildNodes`; children
are gathered in insertion order (ascending item index), roots likewise,
exactly as the dict-reference mutation produces them. -/

/-- A rose tree of items, the `{... , 'nodes': [...]}` dicts of the
source (`clean_node` only strips empty children lists; we keep them). -/
inductive PyTree (α : Type) where
  | node (item : α) (children : List (PyTree α))
  deriving Repr

/-- The item stored at the root of a tree. -/
def PyTree.item {α : Type} : PyTree α → α
  | .node a _ => a

/-- The children of the root of a tree. -/
def PyTree.children {α : Type} : PyTree α → List (PyTree α)
  | .node _ cs => cs

mutual

/-- All items of a tree, root first, children in order. -/
def flattenTree {α : Type} : PyTree α → List α
  | .node a cs => a :: flattenForest cs

/-- All items of a forest in order. -/
def flattenForest {α : Type} : List (PyTree α) → List α
  | [] => []
  | t :: ts => flattenTree t ++ flattenForest ts

end

/-- `get_parent_structure` of the source: `None` for a missing or empty
(falsy) structure; for a dotted string with more than one component, the
join of all but the last component; `None` for a single component. -/
def get_parent_structure (s : Option String) : Option String :=
  match s with
  | none => none
  | some str =>
    if str = "" then none
    else
      let parts := pySplitChar '.' str.data
      if 1 < parts.length then
        some (String.mk (List.intercalate ['.'] parts.dropLast))
      else none

/-- The parent decision of the source's placement loop for item `j`:
`some i` when `get_parent_structure` of item `j`'s structure is a
truthy (nonempty) string that is the structure key of an already-placed
item — `i` being the most recent such item, since `nodes[key]` holds the
last writer — and `none` (a root) otherwise. -/
def parentIndex (structs : List (Option String)) (j : Nat) : Option Nat :=
  match get_parent_structure (structs.getD j none) with
  | none => none
  | some p =>
    if p = "" then none
    else (List.range j).reverse.find? (fun i => decide (structs.getD i none = some p))

/-- Materialise the forest: an entry `(j, t)` per item, where `t`'s
children are the trees of the later items whose parent decision is `j`,
in insertion order. -/
def buildNodes {α : Type} (ps : Nat → Option Nat) :
    List (Nat × α) → List (Nat × PyTree α)
  | [] => []
  | (j, a) :: rest =>
    let built := buildNodes ps rest
    (j, .node a ((built.filter (fun q => decide (ps q.1 = some j))).map (·.2))) :: built

/-- `src/tools/structure_processor.py`, `list_to_tree`: the forest of
root nodes, in insertion order. -/
def list_to_tree {α : Type} (getS : α → Option String) (data : List α) :
    List (PyTree α) :=
  let ps := parentIndex (data.map getS)
  let built := buildNodes ps data.enum
  (built.filter (fun q => decide (ps q.1 = none))).map (·.2)

/-- Keeps, for bound `b`: entries whose parent decision points strictly
below `b` or is absent.  `topFor ps 0` keeps exactly the roots. -/
def topFor {α : Type} (ps : Nat → Option Nat) (b : Nat) (q : Nat × PyTree α) : Bool :=
  match ps q.1 with
  | none => true
  | some i => decide (i < b)

theorem parentIndex_lt (structs : List (Option String)) (j i : Nat)
    (h : parentIndex structs j = some i) : i < j := by
  unfold parentIndex at h
  split at h
  · exact absurd h (by simp)
  · split at h
    · exact absurd h (by simp)
    · have hmem := List.mem_of_find?_eq_some h
      rw [List.mem_reverse, List.mem_range] at hmem
      exact hmem

theorem flattenForest_append {α : Type} (s t : List (PyTree α)) :
    flattenForest (s ++ t) = flattenForest s ++ flattenForest t := by
  induction s with
  | nil => rfl
  | cons x s ih => rw [List.cons_append, flattenForest, flattenForest, ih,
      List.append_assoc]

theorem flattenForest_eq_flatMap {α : Type} (l : List (PyTree α)) :
    flattenForest l = l.flatMap flattenTree := by
  induction l with
  | nil => rfl
  | cons t ts ih => rw [flattenForest, ih, List.flatMap_cons]

theorem flattenForest_perm {α : Type} {s t : List (PyTree α)}
    (h : s.Perm t) : (flattenForest s).Perm (flattenForest t) := by
  rw [flattenForest_eq_flatMap, flattenForest_eq_flatMap]
  exact h.flatMap_right flattenTree

theorem filter_or_perm {β : Type} (p q : β → Bool)
    (hdisj : ∀ x, ¬(p x = true ∧ q x = true)) (l : List β) :
    (l.filter (fun x => p x || q x)).Perm (l.filter p ++ l.filter q) := by
  induction l with
  | nil => simp
  | cons x l ih =>
    by_cases hp : p x = true
    · have hq : q x = false := by
        cases hqx : q x
        · rfl
        · exact absurd ⟨hp, hqx⟩ (hdisj x)
      simp only [List.filter_cons, hp, hq, Bool.true_or]
      exact ih.cons x
    · have hp' : p x = false := by simpa using hp
      by_cases hq : q x = true
      · simp only [List.filter_cons, hp', hq, Bool.false_or]
        exact Trans.trans (ih.cons x) List.perm_middle.symm
      · have hq' : q x = false := by simpa using hq
        simp only [List.filter_cons, hp', hq', Bool.false_or]
        exact ih

theorem topFor_succ {α : Type} (ps : Nat → Option Nat) (j : Nat)
    (q : Nat × PyTree α) :
    topFor ps (j + 1) q =
      (decide (ps q.1 = some j) || topFor ps j q) := by
  unfold topFor
  cases hp : ps q.1 with
  | none => simp
  | some i =>
    simp only [Option.some.injEq]
    by_cases hij : i = j
    · subst hij
      simp [Nat.lt_succ_iff]
    · have : (i < j + 1) = (i < j) := by
        apply propext
        omega
      simp [hij, this]

theorem buildNodes_pairs {α : Type} (ps : Nat → Option Nat)
    (E : List (Nat × α)) :
    (buildNodes ps E).map (fun q => (q.1, (q.2).item)) = E := by
  induction E with
  | nil => rfl
  | cons x rest ih =>
    obtain ⟨j, a⟩ := x
    rw [buildNodes]
    simp only [List.map_cons, ih]
    rfl

theorem buildNodes_fst {α : Type} (ps : Nat → Option Nat)
    (E : List (Nat × α)) :
    (buildNodes ps E).map (·.1) = E.map (·.1) := by
  have h := congrArg (List.map (·.1)) (buildNodes_pairs ps E)
  rw [List.map_map] at h
  exact h

theorem map_pair_filter_fst {α β : Type} (p : Nat → Bool) (g : β → α)
    (l : List (Nat × β)) :
    (l.filter (fun q => p q.1)).map (fun q => (q.1, g q.2)) =
      (l.map (fun q => (q.1, g q.2))).filter (fun q => p q.1) := by
  induction l with
  | nil => rfl
  | cons x l ih =>
    by_cases hp : p x.1 = true
    · simp [List.filter_cons, hp, ih]
    · have hp' : p x.1 = false := by simpa using hp
      simp [List.filter_cons, hp', ih]

theorem buildNodes_tops_perm {α : Type} (ps : Nat → Option Nat)
    (hps : ∀ j i, ps j = some i → i < j) (d : List α) (j : Nat) :
    (flattenForest (((buildNodes ps (List.enumFrom j d)).filter
      (topFor ps j)).map (·.2))).Perm d := by
  induction d generalizing j with
  | nil => simp [buildNodes, flattenForest]
  | cons a d' ih =>
    rw [List.enumFrom_cons, buildNodes]
    have htop : topFor ps j
        ((j : Nat), PyTree.node a (((buildNodes ps (List.enumFrom (j+1) d')).filter
          (fun q => decide (ps q.1 = some j))).map (·.2))) = true := by
      unfold topFor
      cases hp : ps j with
      | none => rfl
      | some i => simpa using hps j i hp
    rw [List.filter_cons, if_pos htop, List.map_cons]
    rw [show flattenForest
        ((PyTree.node a (((buildNodes ps (List.enumFrom (j+1) d')).filter
          (fun q => decide (ps q.1 = some j))).map (·.2))) ::
          (((buildNodes ps (List.enumFrom (j+1) d')).filter (topFor ps j)).map (·.2))) =
        (a :: flattenForest (((buildNodes ps (List.enumFrom (j+1) d')).filter
          (fun q => decide (ps q.1 = some j))).map (·.2))) ++
        flattenForest (((buildNodes ps (List.enumFrom (j+1) d')).filter
          (topFor ps j)).map (·.2)) from rfl]
    rw [List.cons_append]
    refine List.Perm.cons a ?_
    rw [← flattenForest_append, ← List.map_append]
    have hdisj : ∀ x : Nat × PyTree α,
        ¬((decide (ps x.1 = some j)) = true ∧ topFor ps j x = true) := by
      intro x hx
      obtain ⟨h1, h2⟩ := hx
      rw [decide_eq_true_eq] at h1
      unfold topFor at h2
      rw [h1] at h2
      simp at h2
    have hcongr : (buildNodes ps (List.enumFrom (j+1) d')).filter (topFor ps (j+1)) =
        (buildNodes ps (List.enumFrom (j+1) d')).filter
          (fun q => decide (ps q.1 = some j) || topFor ps j q) :=
      List.filter_congr (fun x _ => topFor_succ ps j x)
    have hperm1 : ((buildNodes ps (List.enumFrom (j+1) d')).filter
          (fun q => decide (ps q.1 = some j)) ++
        (buildNodes ps (List.enumFrom (j+1) d')).filter (topFor ps j)).Perm
        ((buildNodes ps (List.enumFrom (j+1) d')).filter (topFor ps (j+1))) := by
      rw [hcongr]
      exact (filter_or_perm _ _ hdisj _).symm
    exact (flattenForest_perm (hperm1.map (·.2))).trans (ih (j + 1))

theorem buildNodes_fst_ge {α : Type} (ps : Nat → Option Nat) (d : List α)
    (j : Nat) (q : Nat × PyTree α)
    (hq : q ∈ buildNodes ps (List.enumFrom j d)) : j ≤ q.1 := by
  have h1 : q.1 ∈ (buildNodes ps (List.enumFrom j d)).map (·.1) :=
    List.mem_map_of_mem (·.1) hq
  rw [buildNodes_fst, List.enumFrom_map_fst] at h1
  rw [List.mem_range'] at h1
  obtain ⟨i, _, hi⟩ := h1
  omega

theorem buildNodes_children {α : Type} (ps : Nat → Option Nat)
    (hps : ∀ j i, ps j = some i → i < j) (d : List α) (j : Nat) :
    ∀ q ∈ buildNodes ps (List.enumFrom j d),
      (q.2).children.map PyTree.item =
        ((List.enumFrom j d).filter (fun r => decide (ps r.1 = some q.1))).map (·.2) := by
  induction d generalizing j with
  | nil =>
    intro q hq
    simp [buildNodes] at hq
  | cons a d' ih =>
    intro q hq
    rw [List.enumFrom_cons, buildNodes] at hq
    rcases List.mem_cons.mp hq with hhead | htail
    · subst hhead
      simp only [PyTree.children]
      have hskip : decide (ps j = some j) = false := by
        cases hp : ps j with
        | none => simp
        | some i =>
          have := hps j i hp
          simp only [hp, decide_eq_false_iff_not, Option.some.injEq]
          omega
      rw [List.enumFrom_cons, List.filter_cons]
      simp only [hskip]
      rw [if_neg (by simp)]
      have hcomm := map_pair_filter_fst (fun n => decide (ps n = some j))
        PyTree.item (buildNodes ps (List.enumFrom (j+1) d'))
      rw [buildNodes_pairs] at hcomm
      have := congrArg (List.map (·.2)) hcomm
      simp only [List.map_map] at this
      simpa [List.map_map, Function.comp] using this
    · have hge : j + 1 ≤ q.1 := buildNodes_fst_ge ps d' (j+1) q htail
      have hskip : decide (ps j = some q.1) = false := by
        cases hp : ps j with
        | none => simp
        | some i =>
          have := hps j i hp
          simp only [hp, decide_eq_false_iff_not, Option.some.injEq]
          omega
      rw [List.enumFrom_cons, List.filter_cons]
      simp only [hskip]
      rw [if_neg (by simp)]
      exact ih (j + 1) q htail

theorem list_to_tree_roots {α : Type} (getS : α → Option String) (data : List α) :
    (list_to_tree getS data).map PyTree.item =
      ((data.enum.filter (fun q =>
        decide (parentIndex (data.map getS) q.1 = none))).map (·.2)) := by
  unfold list_to_tree
  have hcomm := map_pair_filter_fst
    (fun n => decide (parentIndex (data.map getS) n = none)) PyTree.item
    (buildNodes (parentIndex (data.map getS)) data.enum)
  rw [buildNodes_pairs] at hcomm
  have := congrArg (List.map (·.2)) hcomm
  simp only [List.map_map] at this
  simpa [List.map_map, Function.comp] using this

/-- A flat item as `list_to_tree` sees it: a dotted structure index
(possibly absent) plus its payload, here represented by the title. -/
structure TItem where
  structure_ : Option String
  title : String
  deriving DecidableEq, Repr

/-- Claim C4, counterexample.  Input: item "A" with structure index `""`
followed by item "B" with structure index `".1"`.  The parent index of
`".1"` (its dotted index with the last component removed) is `""`, which
names the already-placed node "A" — so the claim makes "B" a child of
"A" and the forest a single root.  The source's guard
`if parent_structure and parent_structure in nodes` treats the empty
parent string as falsy, so "B" becomes a second root: the forest has two
childless roots. -/
theorem C4_counterexample :
    get_parent_structure (some ".1") = some "" ∧
    (some "" : Option String) = (⟨some "", "A"⟩ : TItem).structure_ ∧
    (list_to_tree TItem.structure_ [⟨some "", "A"⟩, ⟨some ".1", "B"⟩]).map
      (fun t => (t.item.title, t.children.length)) = [("A", 0), ("B", 0)] := by
  refine ⟨by decide, rfl, by decide⟩

/-- Claim C4 (amended): `list_to_tree` places each input item exactly
once — the flattened forest is a permutation of the input; an item whose
parent index (dotted structure index minus its last component) is
nonempty and names the structure index of an already-placed item becomes
a child of the most recently placed such item, and every other item (no
structure index, single-component index, empty parent index, or parent
never extracted before it) becomes a root.  `parentIndex` renders that
per-item placement decision; the roots are exactly the items whose
decision is `none`, in order, and each node's children are exactly the
items whose decision names it, in order. -/
theorem C4_list_to_tree_amended (data : List TItem) :
    (flattenForest (list_to_tree TItem.structure_ data)).Perm data
    ∧ (list_to_tree TItem.structure_ data).map PyTree.item =
        ((data.enum.filter (fun q =>
          decide (parentIndex (data.map TItem.structure_) q.1 = none))).map (·.2))
    ∧ (∀ q ∈ buildNodes (parentIndex (data.map TItem.structure_)) data.enum,
        (q.2).children.map PyTree.item =
          ((data.enum.filter (fun r =>
            decide (parentIndex (data.map TItem.structure_) r.1 = some q.1))).map (·.2))) := by
  have hps := parentIndex_lt (data.map TItem.structure_)
  refine ⟨?_, list_to_tree_roots _ data, ?_⟩
  · have h := buildNodes_tops_perm (parentIndex (data.map TItem.structure_)) hps data 0
    unfold list_to_tree
    dsimp only
    have hc : (buildNodes (parentIndex (data.map TItem.structure_)) data.enum).filter
        (fun q => decide (parentIndex (data.map TItem.structure_) q.1 = none)) =
        (buildNodes (parentIndex (data.map TItem.structure_)) data.enum).filter
          (topFor (parentIndex (data.map TItem.structure_)) 0) :=
      List.filter_congr (fun x _ => by
        unfold topFor
        cases hp : parentIndex (data.map TItem.structure_) x.1 <;> simp)
    rw [hc]
    exact h
  · exact buildNodes_children _ hps data 0

/-- Claim C4, witness: for `[{structure: "1", title: "A"},
{structure: "1.1", title: "B"}]` the amended theorem applied at the
node built for item 0 shows "B" is its only child. -/
theorem C4_list_to_tree_amended_witness :
    (PyTree.node (⟨some "1", "A"⟩ : TItem)
      [PyTree.node ⟨some "1.1", "B"⟩ []]).children.map PyTree.item =
      [(⟨some "1.1", "B"⟩ : TItem)] := by
  have h := (C4_list_to_tree_amended [⟨some "1", "A"⟩, ⟨some "1.1", "B"⟩]).2.2
    (0, PyTree.node ⟨some "1", "A"⟩ [PyTree.node ⟨some "1.1", "B"⟩ []])
    (List.Mem.head _)
  exact h.trans (by decide)

/-! ## The token-budgeted chunker
(`src/tools/structure_extractor.py`, `page_list_to_group_text`, lines 849–878)

Python floats only enter through `math.ceil(num_tokens / max_tokens)` and
`math.ceil(((num_tokens / expected_parts_num) + max_tokens) / 2)`; we
model those divisions exactly over `ℚ` (for the token magnitudes the
config admits, float and exact rational ceilings agree).  The loop state
`(subsets, current_subset, current_token_count)` is threaded explicitly;
`i` is the `enumerate` index and slicing is on the original lists, as in
the source.  `groupGoJ` is the transliteration (joining each chunk as it
is appended, like `subsets.append(''.join(current_subset))`);
`groupsGo` keeps chunks as page lists so the theorems can talk about
pages, and the two are proved pointwise equal. -/

/-- The slice `l[a:e]` of a Python list. -/
def sliceL {α : Type} (l : List α) (a e : Nat) : List α := (l.drop a).take (e - a)

/-- `average_tokens_per_part`: the target chunk size computed by the
source (ceilings of exact rational divisions). -/
def chunkTarget (num_tokens max_tokens : Nat) : Int :=
  let expected_parts_num : Int := ⌈(num_tokens : ℚ) / (max_tokens : ℚ)⌉
  ⌈(((num_tokens : ℚ) / (expected_parts_num : ℚ)) + (max_tokens : ℚ)) / 2⌉

/-- The source loop, chunks joined to strings exactly where the source
joins them. -/
def groupGoJ (pc : List String) (tl : List Nat) (k : Nat) (target : Int) :
    List (String × Nat) → Nat → List String → List String → Nat → List String
  | [], _, subsets, current, _ =>
    if current ≠ [] then subsets ++ [String.join current] else subsets
  | (p, t) :: rest, i, subsets, current, count =>
    if ((count + t : Nat) : Int) > target then
      groupGoJ pc tl k target rest (i + 1) (subsets ++ [String.join current])
        (sliceL pc (i - k) i ++ [p]) ((sliceL tl (i - k) i).sum + t)
    else
      groupGoJ pc tl k target rest (i + 1) subsets (current ++ [p]) (count + t)

/-- The same loop keeping each chunk as its list of pages. -/
def groupsGo (pc : List String) (tl : List Nat) (k : Nat) (target : Int) :
    List (String × Nat) → Nat → List (List String) → List String → Nat →
      List (List String)
  | [], _, subsets, current, _ =>
    if current ≠ [] then subsets ++ [current] else subsets
  | (p, t) :: rest, i, subsets, current, count =>
    if ((count + t : Nat) : Int) > target then
      groupsGo pc tl k target rest (i + 1) (subsets ++ [current])
        (sliceL pc (i - k) i ++ [p]) ((sliceL tl (i - k) i).sum + t)
    else
      groupsGo pc tl k target rest (i + 1) subsets (current ++ [p]) (count + t)

/-- `src/tools/structure_extractor.py`, `page_list_to_group_text`:
one chunk of the whole corpus when the total fits the budget, otherwise
the overlap-window loop. -/
def page_list_to_group_text (pc : List String) (tl : List Nat)
    (max_tokens : Nat := 20000) (overlap_page : Nat := 1) : List String :=
  let num_tokens := tl.sum
  if num_tokens ≤ max_tokens then [String.join pc]
  else
    groupGoJ pc tl overlap_page (chunkTarget num_tokens max_tokens)
      (pc.zip tl) 0 [] [] 0

/-- `page_list_to_group_text` with chunks kept as page lists. -/
def page_list_to_groups (pc : List String) (tl : List Nat)
    (max_tokens : Nat := 20000) (overlap_page : Nat := 1) : List (List String) :=
  let num_tokens := tl.sum
  if num_tokens ≤ max_tokens then [pc]
  else
    groupsGo pc tl overlap_page (chunkTarget num_tokens max_tokens)
      (pc.zip tl) 0 [] [] 0

theorem groupGoJ_eq_map_join (pc : List String) (tl : List Nat) (k : Nat)
    (target : Int) (rem : List (String × Nat)) :
    ∀ (i : Nat) (subsets : List (List String)) (current : List String)
      (count : Nat),
      groupGoJ pc tl k target rem i (subsets.map String.join) current count =
        (groupsGo pc tl k target rem i subsets current count).map String.join := by
  induction rem with
  | nil =>
    intro i subsets current count
    unfold groupGoJ groupsGo
    by_cases hc : current = []
    · simp [hc]
    · simp [hc]
  | cons pt rest ih =>
    intro i subsets current count
    obtain ⟨p, t⟩ := pt
    unfold groupGoJ groupsGo
    by_cases hcl : ((count + t : Nat) : Int) > target
    · rw [if_pos hcl, if_pos hcl,
        show List.map String.join subsets ++ [String.join current] =
          List.map String.join (subsets ++ [current]) by simp]
      exact ih (i + 1) (subsets ++ [current]) _ _
    · rw [if_neg hcl, if_neg hcl]
      exact ih (i + 1) subsets _ _

theorem page_list_to_group_text_eq (pc : List String) (tl : List Nat)
    (max_tokens k : Nat) :
    page_list_to_group_text pc tl max_tokens k =
      (page_list_to_groups pc tl max_tokens k).map String.join := by
  unfold page_list_to_group_text page_list_to_groups
  dsimp only
  by_cases h : tl.sum ≤ max_tokens
  · simp [h]
  · rw [if_neg h, if_neg h]
    have := groupGoJ_eq_map_join pc tl k (chunkTarget tl.sum max_tokens)
      (pc.zip tl) 0 [] [] 0
    simpa using this

theorem sliceL_length {α : Type} (l : List α) (a e : Nat) :
    (sliceL l a e).length = min (e - a) (l.length - a) := by
  simp [sliceL]

theorem sliceL_eq_nil_iff {α : Type} (l : List α) (a e : Nat) :
    sliceL l a e = [] ↔ e ≤ a ∨ l.length ≤ a := by
  rw [← List.length_eq_zero, sliceL_length]
  omega

theorem sliceL_zero_length {α : Type} (l : List α) :
    sliceL l 0 l.length = l := by
  simp [sliceL]

theorem sliceL_snoc {α : Type} (l : List α) (a i : Nat) (h1 : a ≤ i)
    (h2 : i < l.length) :
    sliceL l a (i + 1) = sliceL l a i ++ [l.get ⟨i, h2⟩] := by
  unfold sliceL
  rw [show i + 1 - a = (i - a) + 1 by omega, List.take_succ]
  have hlt : i - a < (l.drop a).length := by
    rw [List.length_drop]; omega
  rw [List.getElem?_eq_getElem hlt]
  simp only [Option.toList_some, List.getElem_drop, List.get_eq_getElem,
    show a + (i - a) = i from by omega]

theorem sliceL_append {α : Type} (l : List α) (a b c : Nat) (hab : a ≤ b)
    (hbc : b ≤ c) :
    sliceL l a c = sliceL l a b ++ sliceL l b c := by
  unfold sliceL
  rw [show c - a = (b - a) + (c - b) by omega, List.take_add, List.drop_drop,
    show a + (b - a) = b by omega]

theorem mem_sliceL {α : Type} (l : List α) (a e idx : Nat) (h1 : a ≤ idx)
    (h2 : idx < e) (h3 : idx < l.length) :
    l.get ⟨idx, h3⟩ ∈ sliceL l a e := by
  have hlen : idx - a < (sliceL l a e).length := by
    rw [sliceL_length]; omega
  have heq : (sliceL l a e).get ⟨idx - a, hlen⟩ = l.get ⟨idx, h3⟩ := by
    simp only [sliceL, List.get_eq_getElem, List.getElem_take, List.getElem_drop,
      show a + (idx - a) = idx from by omega]
  rw [← heq]
  exact List.get_mem _ _ _

/-- The chunk start reached after performing the closes `bs`, starting
from `s`: each close at `e` restarts the window at `e - k`. -/
def startOf (k : Nat) : Nat → List Nat → Nat
  | s, [] => s
  | _, e :: es => startOf k (e - k) es

/-- The closed chunks for close positions `bs`, starting from `s`. -/
def chunksFrom (pc : List String) (k : Nat) : Nat → List Nat → List (List String)
  | _, [] => []
  | s, e :: es => sliceL pc s e :: chunksFrom pc k (e - k) es

/-- The page ranges of all chunks (closed chunks plus the final flush,
which is omitted when empty) for close positions `bs` over `n` pages. -/
def rangesOf (k : Nat) : Nat → List Nat → Nat → List (Nat × Nat)
  | s, [], n => if s ≠ n then [(s, n)] else []
  | s, e :: es, n => (s, e) :: rangesOf k (e - k) es n

theorem startOf_append (k s e : Nat) (bs : List Nat) :
    startOf k s (bs ++ [e]) = e - k := by
  induction bs generalizing s with
  | nil => rfl
  | cons b bs ih => exact ih (b - k)

theorem chunksFrom_append (pc : List String) (k s e : Nat) (bs : List Nat) :
    chunksFrom pc k s (bs ++ [e]) =
      chunksFrom pc k s bs ++ [sliceL pc (startOf k s bs) e] := by
  induction bs generalizing s with
  | nil => rfl
  | cons b bs ih =>
    rw [List.cons_append, chunksFrom, chunksFrom, ih (b - k), startOf,
      List.cons_append]

theorem startOf_eq (k s : Nat) (bs : List Nat) :
    startOf k s bs = (match bs.getLast? with | none => s | some e => e - k) := by
  induction bs generalizing s with
  | nil => rfl
  | cons e es ih =>
    cases es with
    | nil => rfl
    | cons e' es' =>
      rw [startOf, ih (e - k), List.getLast?_cons_cons,
        List.getLast?_eq_getLast (e' :: es') (by simp)]

theorem startOf_le_of_lt (k i : Nat) (bs : List Nat)
    (h : ∀ e ∈ bs, e < i) : startOf k 0 bs ≤ i := by
  rw [startOf_eq]
  cases hb : bs.getLast? with
  | none => exact Nat.zero_le i
  | some e =>
    have hm := h e (List.mem_of_getLast?_eq_some hb)
    show e - k ≤ i
    omega

theorem rangesOf_map_slice (pc : List String) (k s n : Nat) (bs : List Nat) :
    (rangesOf k s bs n).map (fun r => sliceL pc r.1 r.2) =
      chunksFrom pc k s bs ++
        (if startOf k s bs ≠ n then [sliceL pc (startOf k s bs) n] else []) := by
  induction bs generalizing s with
  | nil =>
    by_cases h : s ≠ n
    · simp [rangesOf, chunksFrom, startOf, h]
    · simp [rangesOf, chunksFrom, startOf, h]
  | cons e es ih =>
    rw [rangesOf, List.map_cons, chunksFrom, startOf, ih (e - k),
      List.cons_append]

/-- The loop invariant of `groupsGo`: started with the accumulators
determined by a history of closes `bs`, the loop extends `bs` by closes
in `[i, n)` and returns the closed chunks plus the final flush. -/
theorem groupsGo_spec (pc : List String) (tl : List Nat) (k : Nat)
    (target : Int) (htl : tl.length = pc.length) (rem : List (String × Nat)) :
    ∀ (i : Nat) (bs : List Nat),
      rem = (pc.zip tl).drop i → i ≤ pc.length → (∀ e ∈ bs, e < i) →
      List.Pairwise (· < ·) bs →
      ∃ bs' : List Nat,
        (∀ e ∈ bs', i ≤ e ∧ e < pc.length) ∧
        List.Pairwise (· < ·) (bs ++ bs') ∧
        groupsGo pc tl k target rem i (chunksFrom pc k 0 bs)
          (sliceL pc (startOf k 0 bs) i) ((sliceL tl (startOf k 0 bs) i).sum) =
        chunksFrom pc k 0 (bs ++ bs') ++
          (if startOf k 0 (bs ++ bs') ≠ pc.length
           then [sliceL pc (startOf k 0 (bs ++ bs')) pc.length] else []) := by
  induction rem with
  | nil =>
    intro i bs hrem hi hbs hsort
    refine ⟨[], by simp, by simpa using hsort, ?_⟩
    rw [List.append_nil]
    have hzl : (pc.zip tl).length = pc.length := by
      rw [List.length_zip, htl, Nat.min_self]
    have hin : i = pc.length := by
      have hlen := congrArg List.length hrem.symm
      rw [List.length_drop, hzl] at hlen
      simp at hlen
      omega
    subst hin
    have hale : startOf k 0 bs ≤ pc.length := startOf_le_of_lt k _ bs hbs
    rw [groupsGo]
    by_cases han : startOf k 0 bs = pc.length
    · have hcur : sliceL pc (startOf k 0 bs) pc.length = [] :=
        (sliceL_eq_nil_iff _ _ _).mpr (Or.inl (le_of_eq han.symm))
      rw [hcur, if_neg (by simp), if_neg (by simp [han]), List.append_nil]
    · have hcur : sliceL pc (startOf k 0 bs) pc.length ≠ [] := by
        rw [Ne, sliceL_eq_nil_iff]
        push_neg
        omega
      rw [if_pos hcur, if_pos han]
  | cons pt rest ih =>
    intro i bs hrem hi hbs hsort
    obtain ⟨p, t⟩ := pt
    have hzl : (pc.zip tl).length = pc.length := by
      rw [List.length_zip, htl, Nat.min_self]
    have hlt : i < pc.length := by
      by_contra hge
      push_neg at hge
      have hnil : (pc.zip tl).drop i = [] :=
        List.drop_eq_nil_of_le (by omega)
      rw [← hrem] at hnil
      simp at hnil
    have htlt : i < tl.length := by omega
    have hizip : i < (pc.zip tl).length := by omega
    rw [List.drop_eq_getElem_cons hizip] at hrem
    have hhead : (pc.zip tl).get ⟨i, hizip⟩ = (p, t) := by
      have := hrem
      rw [List.cons.injEq] at this
      exact this.1.symm
    have hrest : rest = (pc.zip tl).drop (i + 1) := by
      have := hrem
      rw [List.cons.injEq] at this
      exact this.2
    have hzip_get : (pc.zip tl).get ⟨i, hizip⟩ =
        (pc.get ⟨i, hlt⟩, tl.get ⟨i, htlt⟩) := by
      simp [List.get_eq_getElem, List.getElem_zip]
    have hip : pc.get ⟨i, hlt⟩ = p := by
      rw [hzip_get] at hhead
      exact (Prod.mk.injEq _ _ _ _ ▸ hhead).1
    have hit : tl.get ⟨i, htlt⟩ = t := by
      rw [hzip_get] at hhead
      exact (Prod.mk.injEq _ _ _ _ ▸ hhead).2
    have hale : startOf k 0 bs ≤ i := startOf_le_of_lt k i bs hbs
    rw [groupsGo]
    by_cases hcl : (((sliceL tl (startOf k 0 bs) i).sum + t : Nat) : Int) > target
    · rw [if_pos hcl]
      have h1 : chunksFrom pc k 0 bs ++ [sliceL pc (startOf k 0 bs) i] =
          chunksFrom pc k 0 (bs ++ [i]) := by
        rw [chunksFrom_append]
      have h2 : sliceL pc (i - k) i ++ [p] =
          sliceL pc (startOf k 0 (bs ++ [i])) (i + 1) := by
        rw [startOf_append, ← hip, ← sliceL_snoc pc (i - k) i (by omega) hlt]
      have h3 : (sliceL tl (i - k) i).sum + t =
          (sliceL tl (startOf k 0 (bs ++ [i])) (i + 1)).sum := by
        rw [startOf_append, ← hit, sliceL_snoc tl (i - k) i (by omega) htlt,
          List.sum_append]
        simp
      rw [h1, h2, h3]
      obtain ⟨bs', hmem', hsort', heq'⟩ := ih (i + 1) (bs ++ [i]) hrest (by omega)
        (by
          intro e he
          rcases List.mem_append.mp he with h | h
          · exact Nat.lt_succ_of_lt (hbs e h)
          · simp at h
            omega)
        (List.pairwise_append.mpr ⟨hsort, by simp,
          by
            intro x hx y hy
            simp at hy
            subst hy
            exact hbs x hx⟩)
      refine ⟨i :: bs', ?_, ?_, ?_⟩
      · intro e he
        rcases List.mem_cons.mp he with h | h
        · exact ⟨Nat.le_of_eq h.symm, h.symm ▸ hlt⟩
        · have := hmem' e h
          exact ⟨by omega, this.2⟩
      · rw [show bs ++ i :: bs' = (bs ++ [i]) ++ bs' from by simp]
        exact hsort'
      · rw [show bs ++ i :: bs' = (bs ++ [i]) ++ bs' from by simp]
        exact heq'
    · rw [if_neg hcl]
      have h2 : sliceL pc (startOf k 0 bs) i ++ [p] =
          sliceL pc (startOf k 0 bs) (i + 1) := by
        rw [← hip, ← sliceL_snoc pc (startOf k 0 bs) i hale hlt]
      have h3 : (sliceL tl (startOf k 0 bs) i).sum + t =
          (sliceL tl (startOf k 0 bs) (i + 1)).sum := by
        rw [← hit, sliceL_snoc tl (startOf k 0 bs) i hale htlt,
          List.sum_append]
        simp
      rw [h2, h3]
      obtain ⟨bs', hmem', hsort', heq'⟩ := ih (i + 1) bs hrest (by omega)
        (fun e he => Nat.lt_succ_of_lt (hbs e he)) hsort
      exact ⟨bs', fun e he => ⟨by have := (hmem' e he).1; omega, (hmem' e he).2⟩,
        hsort', heq'⟩

theorem page_list_to_groups_spec (pc : List String) (tl : List Nat) (B k : Nat)
    (htl : tl.length = pc.length) (hgt : B < tl.sum) :
    ∃ bs : List Nat, List.Pairwise (· < ·) bs ∧ (∀ e ∈ bs, e < pc.length) ∧
      page_list_to_groups pc tl B k =
        (rangesOf k 0 bs pc.length).map (fun r => sliceL pc r.1 r.2) := by
  obtain ⟨bs, hmem, hsort, heq⟩ := groupsGo_spec pc tl k (chunkTarget tl.sum B)
    htl (pc.zip tl) 0 [] rfl (Nat.zero_le _) (by simp) (by simp)
  refine ⟨bs, by simpa using hsort, fun e he => (hmem e he).2, ?_⟩
  unfold page_list_to_groups
  dsimp only
  rw [if_neg (by omega), rangesOf_map_slice]
  rw [List.nil_append] at heq
  exact heq

theorem rangesOf_ne_nil (k s n : Nat) (bs : List Nat) (h : s ≠ n) :
    rangesOf k s bs n ≠ [] := by
  cases bs with
  | nil => simp [rangesOf, h]
  | cons e es => simp [rangesOf]

theorem rangesOf_head (k s n : Nat) (bs : List Nat) (h : s ≠ n) :
    (rangesOf k s bs n).head?.map Prod.fst = some s := by
  cases bs with
  | nil => simp [rangesOf, h]
  | cons e es => simp [rangesOf]

theorem rangesOf_last (k s n : Nat) (bs : List Nat) (hlt : ∀ e ∈ bs, e < n)
    (h : s ≠ n) : (rangesOf k s bs n).getLast?.map Prod.snd = some n := by
  induction bs generalizing s with
  | nil => simp [rangesOf, h]
  | cons e es ih =>
    rw [rangesOf]
    have hen : e - k ≠ n := by
      have := hlt e (by simp)
      omega
    have hne := rangesOf_ne_nil k (e - k) n es hen
    obtain ⟨x, l', hx⟩ := List.exists_cons_of_ne_nil hne
    rw [hx, List.getLast?_cons_cons, ← hx]
    exact ih (e - k) (fun y hy => hlt y (by simp [hy])) hen

theorem rangesOf_cover (k s n : Nat) (bs : List Nat)
    (hlt : ∀ e ∈ bs, e < n) :
    ∀ idx, s ≤ idx → idx < n →
      ∃ r ∈ rangesOf k s bs n, r.1 ≤ idx ∧ idx < r.2 := by
  induction bs generalizing s with
  | nil =>
    intro idx h1 h2
    have hsn : s ≠ n := by omega
    exact ⟨(s, n), by simp [rangesOf, hsn], h1, h2⟩
  | cons e es ih =>
    intro idx h1 h2
    by_cases hie : idx < e
    · exact ⟨(s, e), by simp [rangesOf], h1, hie⟩
    · push_neg at hie
      obtain ⟨r, hr, hr1, hr2⟩ := ih (e - k)
        (fun y hy => hlt y (by simp [hy])) idx (by omega) h2
      exact ⟨r, by simp [rangesOf, hr], hr1, hr2⟩

theorem rangesOf_pos (k n : Nat) (bs : List Nat) :
    ∀ s, List.Pairwise (· < ·) bs → (∀ e ∈ bs, e < n) →
      (∀ x ∈ bs, s < x) → s < n →
      ∀ r ∈ rangesOf k s bs n, r.1 < r.2 := by
  induction bs with
  | nil =>
    intro s _ _ _ hs2 r hr
    have hsn : s ≠ n := by omega
    simp [rangesOf, hsn] at hr
    rw [hr]
    exact hs2
  | cons e es ih =>
    intro s hsort hlt hs1 hs2 r hr
    rw [rangesOf] at hr
    rcases List.mem_cons.mp hr with h | h
    · rw [h]
      exact hs1 e (by simp)
    · have hse := hs1 e (by simp)
      have hee := hlt e (by simp)
      refine ih (e - k) ((List.pairwise_cons.mp hsort).2)
        (fun y hy => hlt y (by simp [hy]))
        (fun y hy => ?_) (by omega) r h
      have := (List.pairwise_cons.mp hsort).1 y hy
      omega

theorem rangesOf_fst_lt (k n : Nat) (bs : List Nat) :
    ∀ s, (∀ e ∈ bs, e < n) → s < n →
      ∀ r ∈ rangesOf k s bs n, r.1 < n := by
  induction bs with
  | nil =>
    intro s _ hs r hr
    have hsn : s ≠ n := by omega
    simp [rangesOf, hsn] at hr
    rw [hr]
    exact hs
  | cons e es ih =>
    intro s hlt hs r hr
    rw [rangesOf] at hr
    rcases List.mem_cons.mp hr with h | h
    · rw [h]
      exact hs
    · have hee := hlt e (by simp)
      exact ih (e - k) (fun y hy => hlt y (by simp [hy])) (by omega) r h

theorem rangesOf_tail_pos (k s n : Nat) (bs : List Nat)
    (hsort : List.Pairwise (· < ·) bs) (hlt : ∀ e ∈ bs, e < n) :
    ∀ r ∈ (rangesOf k s bs n).drop 1, r.1 < r.2 := by
  cases bs with
  | nil =>
    intro r hr
    by_cases h : s ≠ n
    · simp [rangesOf, h] at hr
    · simp [rangesOf, h] at hr
  | cons e es =>
    intro r hr
    rw [rangesOf] at hr
    simp only [List.drop_succ_cons, List.drop_zero] at hr
    have hee := hlt e (by simp)
    refine rangesOf_pos k n es (e - k) ((List.pairwise_cons.mp hsort).2)
      (fun y hy => hlt y (by simp [hy])) (fun y hy => ?_) (by omega) r hr
    have := (List.pairwise_cons.mp hsort).1 y hy
    omega

theorem rangesOf_chain (pc : List String) (k n : Nat) (bs : List Nat) :
    ∀ s, List.Pairwise (· < ·) bs → (∀ e ∈ bs, e < n) →
      (∀ x ∈ bs, s ≤ x - k) →
      List.Chain' (fun r r' : Nat × Nat =>
        r'.1 = r.2 - k ∧ r.2 < r'.2 ∧
        sliceL pc r'.1 r'.2 = sliceL pc (r.2 - k) r.2 ++ sliceL pc r.2 r'.2 ∧
        sliceL pc r.1 r.2 = sliceL pc r.1 (r.2 - k) ++ sliceL pc (r.2 - k) r.2)
        (rangesOf k s bs n) := by
  induction bs with
  | nil =>
    intro s _ _ _
    by_cases h : s ≠ n
    · simp [rangesOf, h]
    · simp [rangesOf, h]
  | cons e es ih =>
    intro s hsort hlt hsk
    rw [rangesOf, List.chain'_cons']
    constructor
    · intro y hy
      have hse : s ≤ e - k := hsk e (by simp)
      have hen : e < n := hlt e (by simp)
      cases es with
      | nil =>
        have hekn : e - k ≠ n := by omega
        simp [rangesOf, hekn] at hy
        rw [← hy]
        refine ⟨rfl, by omega, ?_, ?_⟩
        · exact sliceL_append pc (e - k) e n (by omega) (by omega)
        · exact sliceL_append pc s (e - k) e hse (by omega)
      | cons e' es' =>
        simp only [rangesOf, List.head?_cons, Option.mem_def,
          Option.some.injEq] at hy
        have he' : e < e' := (List.pairwise_cons.mp hsort).1 e' (by simp)
        rw [← hy]
        refine ⟨rfl, he', ?_, ?_⟩
        · exact sliceL_append pc (e - k) e e' (by omega) (by omega)
        · exact sliceL_append pc s (e - k) e hse (by omega)
    · refine ih (e - k) ((List.pairwise_cons.mp hsort).2)
        (fun y hy => hlt y (by simp [hy])) (fun y hy => ?_)
      have := (List.pairwise_cons.mp hsort).1 y hy
      omega

/-- Claim C2, counterexample.  Pages `["a", "b"]` with token counts
`[30, 1]`, budget `B = 20`, overlap `k = 1`: the total `31 > 20`, the
computed target chunk size is `18`, and the first page alone exceeds it,
so the loop closes the (still empty) current chunk immediately.  The
call returns `["", "a", "ab"]`: the first returned chunk is EMPTY
(violating "no returned chunk is empty"), and the first two adjacent
chunks share no page although `k = 1` (violating "adjacent chunks share
exactly the last `k` pages of the former"). -/
theorem C2_counterexample :
    page_list_to_groups ["a", "b"] [30, 1] 20 1 = [[], ["a"], ["a", "b"]]
    ∧ page_list_to_group_text ["a", "b"] [30, 1] 20 1 = ["", "a", "ab"]
    ∧ [] ∈ page_list_to_groups ["a", "b"] [30, 1] 20 1 := by
  have ht : chunkTarget 31 20 = 18 := by
    unfold chunkTarget
    norm_num
    rw [show ⌈(31 : ℚ) / 20⌉ = 2 by rw [Int.ceil_eq_iff]; norm_num]
    norm_num
    rw [Int.ceil_eq_iff]
    norm_num
  have hsum : ([30, 1] : List Nat).sum = 31 := by decide
  refine ⟨?_, ?_, ?_⟩
  · unfold page_list_to_groups
    dsimp only
    rw [if_neg (by decide), hsum, ht]
    decide
  · unfold page_list_to_group_text
    dsimp only
    rw [if_neg (by decide), hsum, ht]
    decide
  · unfold page_list_to_groups
    dsimp only
    rw [if_neg (by decide), hsum, ht]
    decide

/-- Claim C2 (amended): for pages with token counts of equal length and
a positive budget `B` (a zero budget raises `ZeroDivisionError` in the
source): if the total token count is at most `B` the whole corpus is
returned as a single chunk.  Otherwise the returned chunks are the page
slices of a range list `rs` starting at page 0 and ending at the page
count, and: every page appears in at least one chunk; every chunk except
possibly the first is nonempty (the first is empty exactly when the
first page alone exceeds the computed target size — see the
counterexample); each next chunk starts `k` pages before the end of the
former, so adjacent chunks share exactly the last `min(k, e)` pages of
the former chunk, where `e` is the number of pages up to the former
chunk's end: the latter chunk is that shared suffix followed by fresh
pages, and the former chunk is its earlier pages followed by the same
shared suffix. -/
theorem C2_page_list_to_group_text_amended (pc : List String) (tl : List Nat)
    (B k : Nat) (htl : tl.length = pc.length) (hB : 0 < B) :
    (tl.sum ≤ B → page_list_to_groups pc tl B k = [pc] ∧
      page_list_to_group_text pc tl B k = [String.join pc])
    ∧ (B < tl.sum → ∃ rs : List (Nat × Nat),
        page_list_to_groups pc tl B k = rs.map (fun r => sliceL pc r.1 r.2)
        ∧ page_list_to_group_text pc tl B k =
            rs.map (fun r => String.join (sliceL pc r.1 r.2))
        ∧ rs ≠ []
        ∧ rs.head?.map Prod.fst = some 0
        ∧ rs.getLast?.map Prod.snd = some pc.length
        ∧ (∀ (idx : Nat) (hidx : idx < pc.length), ∃ r ∈ rs,
            r.1 ≤ idx ∧ idx < r.2 ∧ pc.get ⟨idx, hidx⟩ ∈ sliceL pc r.1 r.2)
        ∧ (∀ r ∈ rs.drop 1, r.1 < r.2 ∧ sliceL pc r.1 r.2 ≠ [])
        ∧ List.Chain' (fun r r' =>
            r'.1 = r.2 - k ∧ r.2 < r'.2 ∧
            sliceL pc r'.1 r'.2 = sliceL pc (r.2 - k) r.2 ++ sliceL pc r.2 r'.2 ∧
            sliceL pc r.1 r.2 = sliceL pc r.1 (r.2 - k) ++ sliceL pc (r.2 - k) r.2)
            rs) := by
  constructor
  · intro hle
    constructor
    · unfold page_list_to_groups
      dsimp only
      rw [if_pos hle]
    · unfold page_list_to_group_text
      dsimp only
      rw [if_pos hle]
  · intro hgt
    obtain ⟨bs, hsort, hmem, heq⟩ := page_list_to_groups_spec pc tl B k htl hgt
    have hn : 0 < pc.length := by
      rcases Nat.eq_zero_or_pos pc.length with h0 | hpos
      · have : tl = [] := List.length_eq_zero.mp (by omega)
        rw [this] at hgt
        simp at hgt
      · exact hpos
    have h0n : (0 : Nat) ≠ pc.length := by omega
    refine ⟨rangesOf k 0 bs pc.length, heq, ?_, rangesOf_ne_nil _ _ _ _ h0n,
      rangesOf_head _ _ _ _ h0n, rangesOf_last _ _ _ _ hmem h0n, ?_, ?_, ?_⟩
    · rw [page_list_to_group_text_eq, heq, List.map_map]
      rfl
    · intro idx hidx
      obtain ⟨r, hr, h1, h2⟩ :=
        rangesOf_cover k 0 pc.length bs hmem idx (Nat.zero_le idx) hidx
      exact ⟨r, hr, h1, h2, mem_sliceL pc r.1 r.2 idx h1 h2 hidx⟩
    · intro r hr
      have hpos := rangesOf_tail_pos k 0 pc.length bs hsort hmem r hr
      refine ⟨hpos, ?_⟩
      have hfst : r.1 < pc.length := by
        have hmem2 : r ∈ rangesOf k 0 bs pc.length :=
          List.mem_of_mem_drop hr
        exact rangesOf_fst_lt k pc.length bs 0 hmem (by omega) r hmem2
      rw [Ne, sliceL_eq_nil_iff]
      push_neg
      omega
    · exact rangesOf_chain pc k pc.length bs 0 hsort hmem
        (fun x _ => Nat.zero_le _)

/-- Claim C2, witness: the single-chunk branch at a corpus fitting the
budget, and the chunked branch at four 10-token pages with budget 15 and
overlap 1 (the amended theorem produces the range decomposition). -/
theorem C2_page_list_to_group_text_amended_witness :
    page_list_to_groups ["a"] [5] 20 1 = [["a"]]
    ∧ ∃ rs : List (Nat × Nat),
        page_list_to_groups ["a", "b", "c", "d"] [10, 10, 10, 10] 15 1 =
          rs.map (fun r => sliceL ["a", "b", "c", "d"] r.1 r.2) ∧ rs ≠ [] := by
  constructor
  · exact ((C2_page_list_to_group_text_amended ["a"] [5] 20 1 (by decide)
      (by decide)).1 (by decide)).1
  · obtain ⟨rs, h1, _, h3, _⟩ := (C2_page_list_to_group_text_amended
      ["a", "b", "c", "d"] [10, 10, 10, 10] 15 1 (by decide) (by decide)).2
      (by decide)
    exact ⟨rs, h1, h3⟩

/-! ## Page-offset calculation
(`src/tools/structure_extractor.py`, `calculate_page_offset` lines
881–905 and `apply_page_offset` lines 908–914)

A structured TOC item may carry a `page` key (any Python value; after
`convert_page_to_int` the realistic values are ints or `None`), an
oracle-matched item may carry a `physical_index` key (expected to be a
`<physical_index_X>` tag string).  `Counter.most_common(1)` returns the
first-inserted key among those of maximal multiplicity; `mostCommonFirst`
models that. -/

/-- A TOC item as the offset calculation sees it (`none` = key absent). -/
structure OffsetTocItem where
  title : String
  page : Option PyVal
  deriving DecidableEq, Repr

/-- An oracle-matched item carrying a claimed physical location. -/
structure PhysItem where
  title : String
  physical_index : Option PyVal
  deriving DecidableEq, Repr

/-- A TOC item after `apply_page_offset` (the `page` key is deleted when
consumed; `physical_index` is added). -/
structure AppliedItem where
  title : String
  page : Option PyVal
  physical_index : Option Int
  deriving DecidableEq, Repr

/-- The `differences` list of `calculate_page_offset`: one entry per
title-matched pair whose tag parses (`int(s.split('_')[-1].rstrip('>'))`;
a `ValueError`/`AttributeError` skips the pair) with an integer `page`
and a parsed position at or after the sample window start. -/
def offsetDifferences (toc_structured : List OffsetTocItem)
    (toc_with_physical : List PhysItem) (start_page_index : Int) : List Int :=
  toc_structured.flatMap (fun ti =>
    toc_with_physical.filterMap (fun pi =>
      match ti.page, pi.physical_index with
      | some pv, some xv =>
        if ti.title = pi.title then
          match xv with
          | .vStr s =>
            match pyInt (pyRstripChar '>' ((pySplitChar '_' s.data).getLastD [])) with
            | some physical_index =>
              match pv with
              | .vInt page_number =>
                if physical_index ≥ start_page_index then
                  some (physical_index - page_number)
                else none
              | _ => none
            | none => none
          | _ => none
        else none
      | _, _ => none))

/-- The unique keys of a list in first-insertion order (the iteration
order of a Python `Counter`), with an accumulator of keys already seen. -/
def insertionOrderKeysAux : List Int → List Int → List Int
  | [], _ => []
  | x :: xs, seen =>
    if x ∈ seen then insertionOrderKeysAux xs seen
    else x :: insertionOrderKeysAux xs (x :: seen)

/-- The unique keys of a list in first-insertion order. -/
def insertionOrderKeys (l : List Int) : List Int := insertionOrderKeysAux l []

/-- One comparison step of `most_common`: keep the earlier key on ties
(`most_common` sorts by count, stably, so ties keep insertion order). -/
def bestStep (l : List Int) (best : Option Int) (x : Int) : Option Int :=
  match best with
  | none => some x
  | some b => if l.count x > l.count b then some x else some b

/-- `Counter(l).most_common(1)[0][0]`: the first-inserted key of maximal
multiplicity. -/
def mostCommonFirst (l : List Int) : Int :=
  match (insertionOrderKeys l).foldl (bestStep l) none with
  | some b => b
  | none => 0

/-- `src/tools/structure_extractor.py`, `calculate_page_offset`. -/
def calculate_page_offset (toc_structured : List OffsetTocItem)
    (toc_with_physical : List PhysItem) (start_page_index : Int) : Int :=
  let differences := offsetDifferences toc_structured toc_with_physical
    start_page_index
  if differences = [] then 0 else mostCommonFirst differences

/-- `src/tools/structure_extractor.py`, `apply_page_offset`: each item
with a present, non-`None` `page` gets `physical_index = page + offset`
and loses its `page` key; other items pass through.  A present `page`
that is not an integer raises `TypeError` in the source (`.error`). -/
def apply_page_offset : List OffsetTocItem → Int →
    Except String (List AppliedItem)
  | [], _ => .ok []
  | item :: rest, offset =>
    match item.page with
    | some (.vInt p) =>
      (apply_page_offset rest offset).map
        (fun out => ⟨item.title, none, some (p + offset)⟩ :: out)
    | some .vNone =>
      (apply_page_offset rest offset).map
        (fun out => ⟨item.title, item.page, none⟩ :: out)
    | none =>
      (apply_page_offset rest offset).map
        (fun out => ⟨item.title, item.page, none⟩ :: out)
    | some _ => .error "TypeError: unsupported operand type(s)"

theorem insertionOrderKeysAux_subset :
    ∀ (l seen : List Int), ∀ x ∈ insertionOrderKeysAux l seen, x ∈ l := by
  intro l
  induction l with
  | nil => intro seen x hx; simpa [insertionOrderKeysAux] using hx
  | cons y ys ih =>
    intro seen x hx
    rw [insertionOrderKeysAux] at hx
    by_cases hy : y ∈ seen
    · rw [if_pos hy] at hx
      exact List.mem_cons_of_mem y (ih seen x hx)
    · rw [if_neg hy] at hx
      rcases List.mem_cons.mp hx with h | h
      · simp [h]
      · exact List.mem_cons_of_mem y (ih (y :: seen) x h)

theorem mem_insertionOrderKeysAux :
    ∀ (l seen : List Int), ∀ x ∈ l, x ∉ seen →
      x ∈ insertionOrderKeysAux l seen := by
  intro l
  induction l with
  | nil => intro seen x hx; simp at hx
  | cons y ys ih =>
    intro seen x hx hseen
    rw [insertionOrderKeysAux]
    by_cases hy : y ∈ seen
    · rw [if_pos hy]
      rcases List.mem_cons.mp hx with h | h
      · exact absurd (h ▸ hy) hseen
      · exact ih seen x h hseen
    · rw [if_neg hy]
      by_cases hxy : x = y
      · simp [hxy]
      · rcases List.mem_cons.mp hx with h | h
        · exact absurd h hxy
        · refine List.mem_cons_of_mem y (ih (y :: seen) x h ?_)
          intro hmem
          rcases List.mem_cons.mp hmem with h2 | h2
          · exact hxy h2
          · exact hseen h2

theorem mem_insertionOrderKeys (l : List Int) :
    ∀ x ∈ l, x ∈ insertionOrderKeys l :=
  fun x hx => mem_insertionOrderKeysAux l [] x hx (by simp)

theorem insertionOrderKeys_subset (l : List Int) :
    ∀ x ∈ insertionOrderKeys l, x ∈ l :=
  fun x hx => insertionOrderKeysAux_subset l [] x hx

theorem foldl_best_spec (l : List Int) (ks : List Int) :
    ∀ acc : Option Int,
      (match ks.foldl (bestStep l) acc with
      | none => acc = none ∧ ks = []
      | some r => (acc = some r ∨ r ∈ ks) ∧
          (∀ x ∈ ks, l.count x ≤ l.count r) ∧
          (∀ b, acc = some b → l.count b ≤ l.count r)) := by
  induction ks with
  | nil =>
    intro acc
    cases acc with
    | none => exact ⟨rfl, rfl⟩
    | some b =>
      exact ⟨Or.inl rfl, by simp, fun b' hb' => by
        rw [Option.some.injEq] at hb'
        rw [hb']⟩
  | cons k ks' ih =>
    intro acc
    rw [List.foldl_cons]
    cases acc with
    | none =>
      rw [show bestStep l none k = some k from rfl]
      have H := ih (some k)
      cases hres : ks'.foldl (bestStep l) (some k) with
      | none =>
        rw [hres] at H
        exact absurd H.1 (by simp)
      | some r =>
        rw [hres] at H
        obtain ⟨h1, h2, h3⟩ := H
        refine ⟨?_, ?_, ?_⟩
        · rcases h1 with h | h
          · rw [Option.some.injEq] at h
            exact Or.inr (by simp [h])
          · exact Or.inr (List.mem_cons_of_mem k h)
        · intro x hx
          rcases List.mem_cons.mp hx with h | h
          · rw [h]
            exact h3 k rfl
          · exact h2 x h
        · intro b hb
          simp at hb
    | some b =>
      by_cases hc : l.count k > l.count b
      · rw [show bestStep l (some b) k = if l.count k > l.count b
            then some k else some b from rfl, if_pos hc]
        have H := ih (some k)
        cases hres : ks'.foldl (bestStep l) (some k) with
        | none =>
          rw [hres] at H
          exact absurd H.1 (by simp)
        | some r =>
          rw [hres] at H
          obtain ⟨h1, h2, h3⟩ := H
          refine ⟨?_, ?_, ?_⟩
          · rcases h1 with h | h
            · rw [Option.some.injEq] at h
              exact Or.inr (by simp [h])
            · exact Or.inr (List.mem_cons_of_mem k h)
          · intro x hx
            rcases List.mem_cons.mp hx with h | h
            · rw [h]
              exact h3 k rfl
            · exact h2 x h
          · intro b' hb'
            rw [Option.some.injEq] at hb'
            subst hb'
            exact le_trans (by omega) (h3 k rfl)
      · rw [show bestStep l (some b) k = if l.count k > l.count b
            then some k else some b from rfl, if_neg hc]
        have H := ih (some b)
        cases hres : ks'.foldl (bestStep l) (some b) with
        | none =>
          rw [hres] at H
          exact absurd H.1 (by simp)
        | some r =>
          rw [hres] at H
          obtain ⟨h1, h2, h3⟩ := H
          refine ⟨?_, ?_, ?_⟩
          · rcases h1 with h | h
            · exact Or.inl h
            · exact Or.inr (List.mem_cons_of_mem k h)
          · intro x hx
            rcases List.mem_cons.mp hx with h | h
            · rw [h]
              exact le_trans (by omega) (h3 b rfl)
            · exact h2 x h
          · intro b' hb'
            rw [Option.some.injEq] at hb'
            subst hb'
            exact h3 b rfl

theorem mostCommonFirst_spec (l : List Int) (h : l ≠ []) :
    mostCommonFirst l ∈ l ∧ ∀ x, l.count x ≤ l.count (mostCommonFirst l) := by
  unfold mostCommonFirst
  have hspec := foldl_best_spec l (insertionOrderKeys l) none
  cases hres : (insertionOrderKeys l).foldl (bestStep l) none with
  | none =>
    rw [hres] at hspec
    obtain ⟨-, h2⟩ := hspec
    obtain ⟨y, ys, hl⟩ := List.exists_cons_of_ne_nil h
    have hy : y ∈ insertionOrderKeys l := mem_insertionOrderKeys l y (by simp [hl])
    rw [h2] at hy
    simp at hy
  | some r =>
    rw [hres] at hspec
    obtain ⟨h1, h2, -⟩ := hspec
    have hrks : r ∈ insertionOrderKeys l := by
      rcases h1 with h | h
      · simp at h
      · exact h
    refine ⟨insertionOrderKeys_subset l r hrks, fun x => ?_⟩
    by_cases hx : x ∈ l
    · exact h2 x (mem_insertionOrderKeys l x hx)
    · rw [List.count_eq_zero_of_not_mem hx]
      exact Nat.zero_le _

/-- Claim C5: `calculate_page_offset` returns a modal (most frequent)
difference of the title-matched, window-filtered `differences` list
(when that list is nonempty), and `apply_page_offset` adds that single
offset to every entry's page number, producing `physical_index` and
consuming `page`, while entries without a usable page number pass
through unchanged with no `physical_index`. -/
theorem C5_offset_rule (toc_structured : List OffsetTocItem)
    (toc_with_physical : List PhysItem) (start_page_index offset : Int) :
    (offsetDifferences toc_structured toc_with_physical start_page_index ≠ [] →
      calculate_page_offset toc_structured toc_with_physical start_page_index ∈
        offsetDifferences toc_structured toc_with_physical start_page_index ∧
      ∀ d, (offsetDifferences toc_structured toc_with_physical
          start_page_index).count d ≤
        (offsetDifferences toc_structured toc_with_physical
          start_page_index).count
          (calculate_page_offset toc_structured toc_with_physical
            start_page_index))
    ∧ (∀ out, apply_page_offset toc_structured offset = .ok out →
        out.length = toc_structured.length ∧
        ∀ (i : Nat) (hi : i < toc_structured.length) (hio : i < out.length),
          (match (toc_structured.get ⟨i, hi⟩).page with
          | some (.vInt p) =>
            out.get ⟨i, hio⟩ =
              ⟨(toc_structured.get ⟨i, hi⟩).title, none, some (p + offset)⟩
          | _ =>
            out.get ⟨i, hio⟩ =
              ⟨(toc_structured.get ⟨i, hi⟩).title,
                (toc_structured.get ⟨i, hi⟩).page, none⟩)) := by
  constructor
  · intro hne
    unfold calculate_page_offset
    dsimp only
    rw [if_neg hne]
    exact mostCommonFirst_spec _ hne
  · induction toc_structured generalizing offset with
    | nil =>
      intro out hout
      cases hout
      exact ⟨rfl, fun i hi hio => absurd hi (by simp)⟩
    | cons item rest ihr =>
      intro out hout
      rw [apply_page_offset] at hout
      cases hpage : item.page with
      | none =>
        rw [hpage] at hout
        cases hrest : apply_page_offset rest offset with
        | error e => rw [hrest] at hout; exact absurd hout (by simp [Except.map])
        | ok out' =>
          rw [hrest] at hout
          simp only [Except.map, Except.ok.injEq] at hout
          obtain ⟨hlen, hall⟩ := ihr offset out' hrest
          subst hout
          refine ⟨by simp [hlen], fun i hi hio => ?_⟩
          cases i with
          | zero => simp [hpage]
          | succ i' => exact hall i' (by simpa using hi) (by simpa using hio)
      | some pv =>
        cases pv with
        | vInt p =>
          rw [hpage] at hout
          cases hrest : apply_page_offset rest offset with
          | error e => rw [hrest] at hout; exact absurd hout (by simp [Except.map])
          | ok out' =>
            rw [hrest] at hout
            simp only [Except.map, Except.ok.injEq] at hout
            obtain ⟨hlen, hall⟩ := ihr offset out' hrest
            subst hout
            refine ⟨by simp [hlen], fun i hi hio => ?_⟩
            cases i with
            | zero => simp [hpage]
            | succ i' => exact hall i' (by simpa using hi) (by simpa using hio)
        | vNone =>
          rw [hpage] at hout
          cases hrest : apply_page_offset rest offset with
          | error e => rw [hrest] at hout; exact absurd hout (by simp [Except.map])
          | ok out' =>
            rw [hrest] at hout
            simp only [Except.map, Except.ok.injEq] at hout
            obtain ⟨hlen, hall⟩ := ihr offset out' hrest
            subst hout
            refine ⟨by simp [hlen], fun i hi hio => ?_⟩
            cases i with
            | zero => simp [hpage]
            | succ i' => exact hall i' (by simpa using hi) (by simpa using hio)
        | vStr s =>
          rw [hpage] at hout
          exact absurd hout (by simp)
        | vOther =>
          rw [hpage] at hout
          exact absurd hout (by simp)

/-- Claim C5, witness: the spec's own example — noisy offsets
`[12, 12, 12, 12, 11, 13]` (80% consistent around 12): the recovered
modal offset is 12; applying it maps page 5 to physical 17. -/
theorem C5_offset_rule_witness :
    calculate_page_offset
      [⟨"A", some (.vInt 1)⟩, ⟨"B", some (.vInt 2)⟩, ⟨"C", some (.vInt 3)⟩,
       ⟨"D", some (.vInt 4)⟩, ⟨"E", some (.vInt 5)⟩, ⟨"F", some (.vInt 6)⟩]
      [⟨"A", some (.vStr "<physical_index_13>")⟩,
       ⟨"B", some (.vStr "<physical_index_14>")⟩,
       ⟨"C", some (.vStr "<physical_index_15>")⟩,
       ⟨"D", some (.vStr "<physical_index_16>")⟩,
       ⟨"E", some (.vStr "<physical_index_16>")⟩,
       ⟨"F", some (.vStr "<physical_index_19>")⟩] 1 = 12
    ∧ apply_page_offset [⟨"G", some (.vInt 5)⟩] 12 =
        .ok [⟨"G", none, some 17⟩] := by
  constructor
  · have h := (C5_offset_rule
      [⟨"A", some (.vInt 1)⟩, ⟨"B", some (.vInt 2)⟩, ⟨"C", some (.vInt 3)⟩,
       ⟨"D", some (.vInt 4)⟩, ⟨"E", some (.vInt 5)⟩, ⟨"F", some (.vInt 6)⟩]
      [⟨"A", some (.vStr "<physical_index_13>")⟩,
       ⟨"B", some (.vStr "<physical_index_14>")⟩,
       ⟨"C", some (.vStr "<physical_index_15>")⟩,
       ⟨"D", some (.vStr "<physical_index_16>")⟩,
       ⟨"E", some (.vStr "<physical_index_16>")⟩,
       ⟨"F", some (.vStr "<physical_index_19>")⟩] 1 0).1 (by decide)
    -- the modal difference of [12, 12, 12, 12, 11, 13] is 12
    have hmem := h.1
    have hcnt := h.2 12
    revert hmem hcnt
    decide
  · rfl

/-! ## The extractor tool's strategy dispatch
(`src/tools/structure_extractor.py`, `structure_extractor_tool`,
lines 14–191)

The three strategy extractors are oracle-driven; their outcomes are
abstracted as `Except String (List α)` inputs (`.error` = a raised
exception, which the tool's outer handler turns into a structured
failure result — the tool itself never raises). -/

/-- The fields of the tool's returned dict that the claims mention. -/
structure ExtractorOutcome (α : Type) where
  success : Bool
  confidence : ℚ
  strategy_used : String
  fallback_attempted : Bool
  structure_raw : List α
  deriving Repr

/-- `structure_extractor_tool`: strategy dispatch with automatic
`no_toc` fallback.  `toc_with_pages` requires `found ∧ has_page_numbers`,
`toc_no_pages` requires `found`; on an unmet precondition the strategy
variable is reassigned to `"no_toc"` and `fallback_attempted` set; a
direct or fallback `no_toc` run gets confidence 0.6 resp. 0.5; an
unknown strategy or an empty extraction raises, which the outer handler
converts to a failure result. -/
def structure_extractor_tool {α : Type} (pages_nonempty : Bool)
    (toc_found has_page_numbers : Bool) (strategy : String)
    (withPages noPages noToc : Except String (List α)) :
    ExtractorOutcome α :=
  if !pages_nonempty then
    ⟨false, 0, strategy, false, []⟩
  else
    let run : Except String (String × Bool × List α × ℚ) := do
      let (strategy', fallback, structure_raw, confidence) ←
        if strategy = "toc_with_pages" then
          if !(toc_found && has_page_numbers) then
            pure ("no_toc", true, (none : Option (List α)), (0 : ℚ))
          else do
            let s ← withPages
            pure (strategy, false, some s, 9/10)
        else if strategy = "toc_no_pages" then
          if !toc_found then
            pure ("no_toc", true, (none : Option (List α)), (0 : ℚ))
          else do
            let s ← noPages
            pure (strategy, false, some s, 7/10)
        else
          pure (strategy, false, (none : Option (List α)), (0 : ℚ))
      let (structure_raw, confidence) ←
        if strategy' = "no_toc" then do
          let s ← noToc
          pure (some s, if !fallback then (3/5 : ℚ) else 1/2)
        else
          pure (structure_raw, confidence)
      match structure_raw with
      | none => Except.error ("Unknown extraction strategy: " ++ strategy)
      | some s =>
        if s.isEmpty then Except.error "No structure extracted from document"
        else pure (strategy', fallback, s, confidence)
    match run with
    | .error _ => ⟨false, 0, strategy, false, []⟩
    | .ok (strategy', fallback, s, confidence) =>
      ⟨true, confidence, strategy', fallback, s⟩

/-- Claim C7: with `TocInfo.found = false`, a `toc_with_pages` request
does not crash: it falls back to `no_toc`; when that fallback succeeds
(nonempty extraction) the tool reports confidence 0.5, while a direct
`no_toc` request that succeeds reports 0.6; when the fallback extraction
itself raises, the tool still returns a structured failure result. -/
theorem C7_fallback_confidence {α : Type} (has_page_numbers : Bool)
    (withPages noPages noToc : Except String (List α)) :
    (∀ items, noToc = .ok items → items ≠ [] →
      structure_extractor_tool true false has_page_numbers "toc_with_pages"
        withPages noPages noToc =
        ⟨true, 1/2, "no_toc", true, items⟩)
    ∧ (∀ items, noToc = .ok items → items ≠ [] →
      structure_extractor_tool true false has_page_numbers "no_toc"
        withPages noPages noToc =
        ⟨true, 3/5, "no_toc", false, items⟩)
    ∧ (∀ e, noToc = .error e →
      (structure_extractor_tool true false has_page_numbers "toc_with_pages"
        withPages noPages noToc).success = false) := by
  refine ⟨?_, ?_, ?_⟩
  · intro items hok hne
    unfold structure_extractor_tool
    simp [hok, List.isEmpty_iff, hne, Bind.bind, Except.bind, Pure.pure,
      Except.pure]
  · intro items hok hne
    unfold structure_extractor_tool
    simp [hok, List.isEmpty_iff, hne, Bind.bind, Except.bind, Pure.pure,
      Except.pure]
  · intro e herr
    unfold structure_extractor_tool
    simp [herr, Bind.bind, Except.bind, Pure.pure, Except.pure]

/-- Claim C7, witness: concrete runs — the fallback success with one
item yields 0.5, the direct `no_toc` success yields 0.6, and a failing
fallback yields a failure result. -/
theorem C7_fallback_confidence_witness :
    structure_extractor_tool true false false "toc_with_pages"
      (.error "unused") (.error "unused") (.ok [(⟨"Intro", some 1⟩ : VItem)]) =
      ⟨true, 1/2, "no_toc", true, [⟨"Intro", some 1⟩]⟩
    ∧ structure_extractor_tool true false false "no_toc"
      (.error "unused") (.error "unused") (.ok [(⟨"Intro", some 1⟩ : VItem)]) =
      ⟨true, 3/5, "no_toc", false, [⟨"Intro", some 1⟩]⟩
    ∧ (structure_extractor_tool true false false "toc_with_pages"
      (.error "unused") (.error "unused")
      (.error "oracle timeout" : Except String (List VItem))).success = false := by
  refine ⟨?_, ?_, ?_⟩
  · exact (C7_fallback_confidence false (.error "unused") (.error "unused")
      (.ok [(⟨"Intro", some 1⟩ : VItem)])).1 [⟨"Intro", some 1⟩] rfl (by decide)
  · exact (C7_fallback_confidence false (.error "unused") (.error "unused")
      (.ok [(⟨"Intro", some 1⟩ : VItem)])).2.1 [⟨"Intro", some 1⟩] rfl (by decide)
  · exact (C7_fallback_confidence false (.error "unused") (.error "unused")
      (.error "oracle timeout" : Except String (List VItem))).2.2
      "oracle timeout" rfl

/-! ## A model of Python's `json` module

`json.loads` / `json.dumps` are standard-library collaborators (spec §6
treats the JSON layer as part of the oracle response contract).  The
model below covers the JSON fragment the pipeline exchanges: `null`,
booleans, integers, strings with simple escapes, arrays and objects
(floats and `\uXXXX` escapes are rejected; no claim exercises them).
The parser is fuel-indexed structural recursion so that every concrete
run evaluates by `rfl`/`decide`. -/

inductive JVal where
  | jnull : JVal
  | jbool : Bool → JVal
  | jnum : Int → JVal
  | jstr : String → JVal
  | jarr : List JVal → JVal
  | jobj : List (String × JVal) → JVal
  deriving Repr

/-- JSON whitespace. -/
def jsonWs (c : Char) : Bool :=
  c = ' ' ∨ c = '\t' ∨ c = '\n' ∨ c = '\r'

/-- Scan a JSON string body after the opening quote. -/
def jparseStringAux : List Char → List Char → Option (String × List Char)
  | [], _ => none
  | '"' :: rest, acc => some (String.mk acc.reverse, rest)
  | '\\' :: c :: rest, acc =>
    if c = '"' then jparseStringAux rest ('"' :: acc)
    else if c = '\\' then jparseStringAux rest ('\\' :: acc)
    else if c = '/' then jparseStringAux rest ('/' :: acc)
    else if c = 'n' then jparseStringAux rest ('\n' :: acc)
    else if c = 't' then jparseStringAux rest ('\t' :: acc)
    else if c = 'r' then jparseStringAux rest ('\r' :: acc)
    else none
  | ['\\'], _ => none
  | c :: rest, acc => jparseStringAux rest (c :: acc)

/-- Parse a JSON integer (leading-zero rule of the JSON grammar; a
following `.`/`e` would make it a float, which this model rejects). -/
def jparseNum (cs : List Char) : Option (Int × List Char) :=
  let core : List Char → Option (Int × List Char) := fun ds =>
    match ds with
    | [] => none
    | d :: rest =>
      if d = '0' then
        match rest with
        | r :: _ => if r.isDigit then none else some (0, rest)
        | [] => some (0, [])
      else if d.isDigit then
        let digits := (d :: rest).takeWhile Char.isDigit
        let rest' := (d :: rest).dropWhile Char.isDigit
        some ((digits.foldl (fun acc c => acc * 10 + (c.toNat - 48)) 0 : Nat),
          rest')
      else none
  match cs with
  | '-' :: rest =>
    match core rest with
    | some (n, rest') =>
      match rest' with
      | r :: _ => if r = '.' ∨ r = 'e' ∨ r = 'E' then none else some (-n, rest')
      | [] => some (-n, [])
    | none => none
  | _ =>
    match core cs with
    | some (n, rest') =>
      match rest' with
      | r :: _ => if r = '.' ∨ r = 'e' ∨ r = 'E' then none else some (n, rest')
      | [] => some (n, [])
    | none => none

mutual

/-- Parse one JSON value (fuel-indexed). -/
def jparseVal : Nat → List Char → Option (JVal × List Char)
  | 0, _ => none
  | fuel + 1, cs =>
    match cs.dropWhile jsonWs with
    | [] => none
    | '"' :: rest =>
      (jparseStringAux rest []).map (fun p => (JVal.jstr p.1, p.2))
    | '[' :: rest => jparseArrItems fuel rest
    | '{' :: rest => jparseObjItems fuel rest
    | 'n' :: rest =>
      if "ull".data.isPrefixOf rest then some (JVal.jnull, rest.drop 3)
      else none
    | 't' :: rest =>
      if "rue".data.isPrefixOf rest then some (JVal.jbool true, rest.drop 3)
      else none
    | 'f' :: rest =>
      if "alse".data.isPrefixOf rest then some (JVal.jbool false, rest.drop 4)
      else none
    | c :: rest =>
      if c = '-' ∨ c.isDigit then
        (jparseNum (c :: rest)).map (fun p => (JVal.jnum p.1, p.2))
      else none

/-- Parse array items after `[`. -/
def jparseArrItems : Nat → List Char → Option (JVal × List Char)
  | 0, _ => none
  | fuel + 1, cs =>
    match cs.dropWhile jsonWs with
    | ']' :: rest => some (JVal.jarr [], rest)
    | cs' =>
      match jparseVal fuel cs' with
      | none => none
      | some (v, rest) => jparseArrTail fuel v [] rest

/-- Parse `, item`* `]` after the first array item. -/
def jparseArrTail : Nat → JVal → List JVal → List Char →
    Option (JVal × List Char)
  | 0, _, _, _ => none
  | fuel + 1, v, acc, cs =>
    match cs.dropWhile jsonWs with
    | ']' :: rest => some (JVal.jarr ((v :: acc).reverse), rest)
    | ',' :: rest =>
      match jparseVal fuel rest with
      | none => none
      | some (v', rest') => jparseArrTail fuel v' (v :: acc) rest'
    | _ => none

/-- Parse object fields after `{`. -/
def jparseObjItems : Nat → List Char → Option (JVal × List Char)
  | 0, _ => none
  | fuel + 1, cs =>
    match cs.dropWhile jsonWs with
    | '}' :: rest => some (JVal.jobj [], rest)
    | '"' :: rest =>
      match jparseStringAux rest [] with
      | none => none
      | some (key, rest') =>
        match (rest'.dropWhile jsonWs) with
        | ':' :: rest'' =>
          match jparseVal fuel rest'' with
          | none => none
          | some (v, rest3) => jparseObjTail fuel (key, v) [] rest3
        | _ => none
    | _ => none

/-- Parse `, "key": value`* `}` after the first object field. -/
def jparseObjTail : Nat → (String × JVal) → List (String × JVal) →
    List Char → Option (JVal × List Char)
  | 0, _, _, _ => none
  | fuel + 1, kv, acc, cs =>
    match cs.dropWhile jsonWs with
    | '}' :: rest => some (JVal.jobj ((kv :: acc).reverse), rest)
    | ',' :: rest =>
      match (rest.dropWhile jsonWs) with
      | '"' :: rest' =>
        match jparseStringAux rest' [] with
        | none => none
        | some (key, rest'') =>
          match (rest''.dropWhile jsonWs) with
          | ':' :: rest3 =>
            match jparseVal fuel rest3 with
            | none => none
            | some (v, rest4) => jparseObjTail fuel (key, v) (kv :: acc) rest4
          | _ => none
      | _ => none
    | _ => none

end

/-- Modelled from Python's `json.loads`: parse one value, then require
only trailing whitespace. -/
def json_loads (s : String) : Option JVal :=
  match jparseVal (s.data.length + 1) s.data with
  | some (v, rest) => if rest.dropWhile jsonWs = [] then some v else none
  | none => none

/-! ## `extract_json` (`src/core/utils.py`, lines 68–100) -/

/-- Python `str.find(pat)`: first index where `pat` occurs
(`none` models `-1`). -/
def findSub : List Char → List Char → Option Nat
  | [], pat => if pat.isEmpty then some 0 else none
  | c :: rest, pat =>
    if pat.isPrefixOf (c :: rest) then some 0
    else (findSub rest pat).map (· + 1)

/-- Python `str.rfind(pat)`: last index where `pat` occurs. -/
def rfindSub (s pat : List Char) : Option Nat :=
  ((List.range (s.length + 1)).filter (fun i => pat.isPrefixOf (s.drop i))).getLast?

/-- Python `str.replace(old, new)` for nonempty `old`: leftmost,
non-overlapping (fuel-indexed so concrete runs reduce). -/
def pyReplaceFuel (old new : List Char) : Nat → List Char → List Char
  | 0, s => s
  | fuel + 1, s =>
    match s with
    | [] => []
    | c :: rest =>
      if old.isPrefixOf s then new ++ pyReplaceFuel old new fuel (s.drop old.length)
      else c :: pyReplaceFuel old new fuel rest

/-- Python `str.replace(old, new)` for nonempty `old`. -/
def pyReplace (s old new : List Char) : List Char :=
  pyReplaceFuel old new s.length s

/-- Python `str.split()` (split on whitespace runs, no empties). -/
def pyWordsAux : List Char → List Char → List (List Char)
  | [], acc => if acc.isEmpty then [] else [acc.reverse]
  | c :: rest, acc =>
    if pyIsWs c then
      if acc.isEmpty then pyWordsAux rest []
      else acc.reverse :: pyWordsAux rest []
    else pyWordsAux rest (c :: acc)

/-- `' '.join(s.split())`: collapse whitespace runs to single spaces. -/
def pyWsNormalize (s : List Char) : List Char :=
  List.intercalate [' '] (pyWordsAux s [])

/-- The text `extract_json` hands to the first `json.loads` attempt:
the ` ```json `-fenced region (up to the LAST ` ``` `; the whole content
otherwise), stripped, with `None` → `null`, newlines → spaces, and
whitespace runs collapsed. -/
def extractJsonStage1 (content : String) : List Char :=
  let cs := content.data
  let json_content :=
    match findSub cs "```json".data with
    | some start_idx =>
      let e :=
        match rfindSub cs "```".data with
        | some e => e
        | none => cs.length - 1
      pyStrip (sliceL cs (start_idx + 7) e)
    | none => pyStrip cs
  let c1 := pyReplace json_content "None".data "null".data
  let c2 := pyReplace c1 "\n".data " ".data
  let c3 := pyReplace c2 "\r".data " ".data
  pyWsNormalize c3

/-- The second attempt's text: trailing commas before `]`/`}` removed. -/
def extractJsonStage2 (content : String) : List Char :=
  let c := extractJsonStage1 content
  pyReplace (pyReplace c ",]".data "]".data) ",\x7d".data "\x7d".data

/-- `src/core/utils.py`, `extract_json`: parse the cleaned fenced region,
retry once after comma cleanup, and fall back to the empty dict. -/
def extract_json (content : String) : JVal :=
  match json_loads (String.mk (extractJsonStage1 content)) with
  | some v => v
  | none =>
    match json_loads (String.mk (extractJsonStage2 content)) with
    | some v => v
    | none => JVal.jobj []

/-- Is a JSON value a dictionary? -/
def JVal.isDict : JVal → Bool
  | .jobj _ => true
  | _ => false

/-- Claim C9, counterexample.  `extract_json` returns whatever JSON
value parses — not necessarily a dictionary: on `"[1, 2]"` it returns
the list `[1, 2]` (the repository's own extractors rely on list returns,
e.g. `generate_structure_from_content`), so "returns a dictionary" is
false.  On `"7"` it returns the integer 7. -/
theorem C9_counterexample :
    extract_json "[1, 2]" = JVal.jarr [JVal.jnum 1, JVal.jnum 2]
    ∧ (extract_json "[1, 2]").isDict = false
    ∧ extract_json "7" = JVal.jnum 7 := by
  refine ⟨rfl, rfl, rfl⟩

/-- Claim C9 (amended): `extract_json` is total and never raises: it
returns the parsed JSON value — of any JSON type, not necessarily a
dictionary — of the cleaned input (the ` ```json `-fenced region up to
the last ` ``` ` when a fence is present, the whole string otherwise),
retrying once with trailing commas removed, and returns the empty
dictionary when parsing fails even after that cleanup. -/
theorem C9_extract_json_amended (content : String) :
    (∀ v, json_loads (String.mk (extractJsonStage1 content)) = some v →
      extract_json content = v)
    ∧ (∀ v, json_loads (String.mk (extractJsonStage1 content)) = none →
      json_loads (String.mk (extractJsonStage2 content)) = some v →
      extract_json content = v)
    ∧ (json_loads (String.mk (extractJsonStage1 content)) = none →
      json_loads (String.mk (extractJsonStage2 content)) = none →
      extract_json content = JVal.jobj [])
    ∧ (∀ start_idx, findSub content.data "```json".data = some start_idx →
      ∀ e, rfindSub content.data "```".data = some e →
      extractJsonStage1 content =
        pyWsNormalize (pyReplace (pyReplace (pyReplace
          (pyStrip (sliceL content.data (start_idx + 7) e))
          "None".data "null".data) "\n".data " ".data) "\r".data " ".data)) := by
  refine ⟨?_, ?_, ?_, ?_⟩
  · intro v hv
    unfold extract_json
    rw [hv]
  · intro v h1 h2
    unfold extract_json
    rw [h1, h2]
  · intro h1 h2
    unfold extract_json
    rw [h1, h2]
  · intro start_idx hs e he
    unfold extractJsonStage1
    dsimp only
    rw [hs, he]

/-- Claim C9, witness: a fenced response wrapped in prose parses to the
fenced object; garbage falls back to the empty dict. -/
theorem C9_extract_json_amended_witness :
    extract_json "Sure! ```json \x7b\"answer\": \"yes\"\x7d ``` hope this helps" =
      JVal.jobj [("answer", JVal.jstr "yes")]
    ∧ extract_json "utter garbage" = JVal.jobj [] := by
  constructor
  · exact (C9_extract_json_amended
      "Sure! ```json \x7b\"answer\": \"yes\"\x7d ``` hope this helps").1
      (JVal.jobj [("answer", JVal.jstr "yes")]) rfl
  · exact (C9_extract_json_amended "utter garbage").2.2.1 rfl rfl

/-! ## A model of `json.dumps` -/

/-- Lowercase hexadecimal digit (as used by `json.dumps` escapes). -/
def hexDigit (n : Nat) : Char :=
  if n < 10 then Char.ofNat ('0'.toNat + n) else Char.ofNat ('a'.toNat + (n - 10))

/-- A `\uXXXX` escape for a 16-bit code unit. -/
def uEscape (n : Nat) : List Char :=
  ['\\', 'u', hexDigit (n / 4096 % 16), hexDigit (n / 256 % 16),
    hexDigit (n / 16 % 16), hexDigit (n % 16)]

/-- How `json.dumps` (default `ensure_ascii=True`) renders one character
inside a string literal. -/
def jescapeChar (c : Char) : List Char :=
  if c = '"' then ['\\', '"']
  else if c = '\\' then ['\\', '\\']
  else if c = '\n' then ['\\', 'n']
  else if c = '\r' then ['\\', 'r']
  else if c = '\t' then ['\\', 't']
  else if c = '\x08' then ['\\', 'b']
  else if c = '\x0c' then ['\\', 'f']
  else if c.toNat < 0x20 ∨ 0x80 ≤ c.toNat then
    if c.toNat < 0x10000 then uEscape c.toNat
    else uEscape (0xd800 + (c.toNat - 0x10000) / 0x400) ++
      uEscape (0xdc00 + (c.toNat - 0x10000) % 0x400)
  else [c]

/-- `json.dumps` of a string. -/
def jdumpString (s : String) : String :=
  String.mk ('"' :: s.data.flatMap jescapeChar ++ ['"'])

mutual

/-- `json.dumps` with the default separators `", "` / `": "`. -/
def jdump : JVal → String
  | .jnull => "null"
  | .jbool b => if b then "true" else "false"
  | .jnum n => toString n
  | .jstr s => jdumpString s
  | .jarr vs => "[" ++ jdumpArr vs ++ "]"
  | .jobj kvs => "\x7b" ++ jdumpObj kvs ++ "\x7d"

/-- Array elements, comma-separated. -/
def jdumpArr : List JVal → String
  | [] => ""
  | v :: vs => jdump v ++ jdumpArrRest vs

/-- Array elements after the first. -/
def jdumpArrRest : List JVal → String
  | [] => ""
  | v :: vs => ", " ++ jdump v ++ jdumpArrRest vs

/-- Object entries, comma-separated. -/
def jdumpObj : List (String × JVal) → String
  | [] => ""
  | (k, v) :: kvs => jdumpString k ++ ": " ++ jdump v ++ jdumpObjRest kvs

/-- Object entries after the first. -/
def jdumpObjRest : List (String × JVal) → String
  | [] => ""
  | (k, v) :: kvs => ", " ++ jdumpString k ++ ": " ++ jdump v ++ jdumpObjRest kvs

end

/-! ## The batch scheduler (`src/core/llm_batch_utils.py`) -/

/-- `BatchItem` (llm_batch_utils.py): one request of a batch. -/
structure BatchItem where
  id : String
  content : String
  deriving DecidableEq, Repr

/-- `BatchResult`: per-item outcome; `error = none` signals success. -/
structure BatchResult where
  id : String
  result : String
  error : Option String
  deriving DecidableEq, Repr

/-- Python dict lookup on a parsed JSON object (`json.loads` keeps the
last value for a duplicated key). -/
def jobjGet (kvs : List (String × JVal)) (k : String) : Option JVal :=
  ((kvs.filter (fun p => p.1 == k)).getLast?).map (·.2)

/-- Does a JSON key equal the Python string `k`?  (Python string
equality: a `str` equals no value of another type.) -/
def isStrKey (v : JVal) (k : String) : Bool :=
  match v with
  | .jstr s => s == k
  | _ => false

/-- `result_map.get(item.id, ...)`: lookup of the string `item.id` in
the comprehension dict (last insertion wins on duplicate keys). -/
def mapGet (m : List (JVal × JVal)) (k : String) : Option JVal :=
  ((m.filter (fun p => isStrKey p.1 k)).getLast?).map (·.2)

/-- Python iteration over a JSON value (`for r in results_data`): lists
yield elements, strings their characters, dicts their keys; anything
else raises `TypeError`. -/
def pyIter : JVal → Option (List JVal)
  | .jarr vs => some vs
  | .jstr s => some (s.data.map (fun c => .jstr (String.mk [c])))
  | .jobj kvs => some (kvs.map (fun kv => .jstr kv.1))
  | _ => none

/-- Is a JSON value hashable in Python (usable as a dict key)?
`null`, booleans, numbers and strings are; lists and dicts raise
`TypeError: unhashable type`. -/
def jhashable : JVal → Bool
  | .jarr _ => false
  | .jobj _ => false
  | _ => true

/-- The comprehension `\x7br["id"]: r["result"] for r in results_data\x7d`:
each element must be a dict with both keys and a hashable `"id"`
(`TypeError`/`KeyError` otherwise — an array or object `"id"` is an
unhashable dict key — caught by the handler). -/
def buildResultMap : List JVal → Option (List (JVal × JVal))
  | [] => some []
  | .jobj kvs :: rest =>
    match jobjGet kvs "id", jobjGet kvs "result" with
    | some i, some r =>
      if jhashable i then (buildResultMap rest).map (fun m => (i, r) :: m)
      else none
    | _, _ => none
  | _ :: _ => none

/-- The `try` body of `_parse_extraction_batch_response` up to
`result_map`: `json.loads(response)`, `.get("results", [])`, then the
comprehension; `none` models any caught exception. -/
def parseResultMap (response : String) : Option (List (JVal × JVal)) :=
  match json_loads response with
  | some (.jobj kvs) =>
    match jobjGet kvs "results" with
    | none => some []
    | some v =>
      match pyIter v with
      | some elems => buildResultMap elems
      | none => none
  | _ => none

/-- `_parse_extraction_batch_response` (lines 181–201): on a parsed
response every item gets `json.dumps(result_map.get(item.id, \x7b\x7d))`
with NO error — an item missing from the response silently becomes
`"\x7b\x7d"`; on any exception every item gets an explicit
`"Parse error"`. -/
def parse_extraction_batch_response (response : String)
    (items : List BatchItem) : List BatchResult :=
  match parseResultMap response with
  | some m => items.map (fun item =>
      ⟨item.id, jdump ((mapGet m item.id).getD (.jobj [])), none⟩)
  | none => items.map (fun item => ⟨item.id, "", some "Parse error"⟩)

/-- The loop of `_split_items_by_token_limit`: `cur`/`t` are
`current_batch`/`current_tokens`; a full batch is closed before an item
that would overflow a nonempty batch. -/
def splitItemsGo (tok : BatchItem → Nat) (M base : Nat) :
    List BatchItem → List BatchItem → Nat → List (List BatchItem)
  | [], cur, _ => if cur = [] then [] else [cur]
  | item :: rest, cur, t =>
    if M < t + tok item ∧ cur ≠ [] then
      cur :: splitItemsGo tok M base rest [item] (base + tok item)
    else
      splitItemsGo tok M base rest (cur ++ [item]) (t + tok item)

/-- `_split_items_by_token_limit` (lines 203–228), with `count_tokens`
abstracted: `tok item` is the token count of the item's prompt block and
`base` that of the base prompt; `M` is `self.max_tokens`. -/
def split_items_by_token_limit (tok : BatchItem → Nat) (M base : Nat)
    (items : List BatchItem) : List (List BatchItem) :=
  if items = [] then [] else splitItemsGo tok M base items [] base

/-- `batch_toc_operations` (lines 230–273), with the LLM call abstracted
as `oracle : List BatchItem → Except String String` (`.error e` models a
raised exception with message `e`): each token-limited batch is sent to
the oracle; a successful response is parsed per item, and an oracle
exception yields one explicit error result per item of that batch while
the remaining batches still run. -/
def batch_toc_operations (oracle : List BatchItem → Except String String)
    (tok : BatchItem → Nat) (M base : Nat)
    (items : List BatchItem) : List BatchResult :=
  if items = [] then [] else
  (split_items_by_token_limit tok M base items).flatMap (fun batch =>
    match oracle batch with
    | .ok response => parse_extraction_batch_response response batch
    | .error e => batch.map (fun item => ⟨item.id, "", some e⟩))

/-- The empty dict serializes to `"\x7b\x7d"`. -/
theorem jdump_emptyObj : jdump (JVal.jobj []) = "\x7b\x7d" := by
  simp [jdump, jdumpObj]

/-- Every batch of the splitter concatenates back to its input. -/
theorem splitItemsGo_flatten (tok : BatchItem → Nat) (M base : Nat) :
    ∀ rest cur t, (splitItemsGo tok M base rest cur t).flatten = cur ++ rest := by
  intro rest
  induction rest with
  | nil =>
    intro cur t
    unfold splitItemsGo
    by_cases h : cur = []
    · rw [if_pos h]; simp [h]
    · rw [if_neg h]; simp
  | cons item rest ih =>
    intro cur t
    unfold splitItemsGo
    by_cases h : M < t + tok item ∧ cur ≠ []
    · rw [if_pos h]
      simp [ih]
    · rw [if_neg h]
      rw [ih]
      simp

/-- Parsing a response never changes the item ids or their order. -/
theorem parse_ids (resp : String) (b : List BatchItem) :
    (parse_extraction_batch_response resp b).map BatchResult.id =
      b.map BatchItem.id := by
  unfold parse_extraction_batch_response
  cases parseResultMap resp <;> simp

/-- flatMap of a per-batch map is a map of the flattening. -/
theorem flatMap_map_eq {β : Type} (g : BatchItem → β) :
    ∀ ls : List (List BatchItem),
      ls.flatMap (fun b => b.map g) = ls.flatten.map g := by
  intro ls
  induction ls with
  | nil => simp
  | cons b ls ih => simp [ih]

/-- Claim C8, counterexample.  One item, and an oracle whose (parsed,
well-formed) response resolves none of the items: the scheduler reports
the item with result `json.dumps(\x7b\x7d) = "\x7b\x7d"` and `error = none` —
the unresolved item is silently substituted with an empty result instead
of carrying an explicit error. -/
theorem C8_counterexample :
    batch_toc_operations (fun _ => Except.ok "\x7b\"results\": []\x7d")
      (fun _ => 0) 100 0 [⟨"item_1", "c"⟩] =
      [⟨"item_1", jdump (JVal.jobj []), none⟩]
    ∧ jdump (JVal.jobj []) = "\x7b\x7d" :=
  ⟨rfl, jdump_emptyObj⟩

/-- Claim C8 (amended): the scheduler (i) preserves the item ids and
their order; (ii) on an oracle exception for one batch reports every
item of that batch with an empty result and that exception as the
explicit error, while the other batches are still processed; (iii) on a
response that parses but omits an item, reports that item with result
`json.dumps(\x7b\x7d)` and NO error — the silent empty substitution the
spec rules out; (iv) on an unparseable response reports every item of
the batch with an explicit `"Parse error"`. -/
theorem C8_batch_toc_operations_amended
    (oracle : List BatchItem → Except String String)
    (tok : BatchItem → Nat) (M base : Nat) (items : List BatchItem) :
    ((batch_toc_operations oracle tok M base items).map BatchResult.id =
      items.map BatchItem.id)
    ∧ (∀ b ∈ split_items_by_token_limit tok M base items, ∀ e,
        oracle b = .error e → ∀ i ∈ b,
        BatchResult.mk i.id "" (some e) ∈
          batch_toc_operations oracle tok M base items)
    ∧ (∀ b ∈ split_items_by_token_limit tok M base items, ∀ resp m,
        oracle b = .ok resp → parseResultMap resp = some m → ∀ i ∈ b,
        mapGet m i.id = none →
        BatchResult.mk i.id (jdump (JVal.jobj [])) none ∈
          batch_toc_operations oracle tok M base items)
    ∧ (∀ b ∈ split_items_by_token_limit tok M base items, ∀ resp,
        oracle b = .ok resp → parseResultMap resp = none → ∀ i ∈ b,
        BatchResult.mk i.id "" (some "Parse error") ∈
          batch_toc_operations oracle tok M base items) := by
  have hsplit : ∀ b ∈ split_items_by_token_limit tok M base items,
      items ≠ [] := by
    intro b hb hnil
    rw [hnil] at hb
    simp [split_items_by_token_limit] at hb
  refine ⟨?_, ?_, ?_, ?_⟩
  · by_cases hi : items = []
    · rw [hi]; rfl
    · unfold batch_toc_operations
      rw [if_neg hi]
      rw [List.map_flatMap]
      have h1 : (split_items_by_token_limit tok M base items).flatMap
            (fun b => List.map BatchResult.id (match oracle b with
              | .ok response => parse_extraction_batch_response response b
              | .error e =>
                b.map (fun item => BatchResult.mk item.id "" (some e)))) =
          (split_items_by_token_limit tok M base items).flatMap
            (fun b => b.map BatchItem.id) := by
        refine List.flatMap_congr ?_
        intro b _
        cases oracle b with
        | ok r => exact parse_ids r b
        | error e => simp
      rw [h1, flatMap_map_eq]
      unfold split_items_by_token_limit
      rw [if_neg hi, splitItemsGo_flatten]
      simp
  · intro b hb e he i hib
    unfold batch_toc_operations
    rw [if_neg (hsplit b hb)]
    refine List.mem_flatMap.mpr ⟨b, hb, ?_⟩
    rw [he]
    exact List.mem_map.mpr ⟨i, hib, rfl⟩
  · intro b hb resp m hok hm i hib hmiss
    unfold batch_toc_operations
    rw [if_neg (hsplit b hb)]
    refine List.mem_flatMap.mpr ⟨b, hb, ?_⟩
    rw [hok]
    show BatchResult.mk i.id (jdump (JVal.jobj [])) none ∈
      parse_extraction_batch_response resp b
    unfold parse_extraction_batch_response
    rw [hm]
    refine List.mem_map.mpr ⟨i, hib, ?_⟩
    rw [hmiss]
    rfl
  · intro b hb resp hok hparse i hib
    unfold batch_toc_operations
    rw [if_neg (hsplit b hb)]
    refine List.mem_flatMap.mpr ⟨b, hb, ?_⟩
    rw [hok]
    show BatchResult.mk i.id "" (some "Parse error") ∈
      parse_extraction_batch_response resp b
    unfold parse_extraction_batch_response
    rw [hparse]
    exact List.mem_map.mpr ⟨i, hib, rfl⟩

/-- Claim C8, witness: three items split into three batches (token
limit 100, each item 60 tokens); the first batch's response parses but
omits its item (silent `"\x7b\x7d"`, no error), the second batch's
oracle call raises (explicit error), and the third batch's response
carries a JSON array as an `"id"` — an unhashable dict key, so the
comprehension raises `TypeError` and every item of that batch gets an
explicit `"Parse error"`. -/
theorem C8_batch_toc_operations_amended_witness :
    ((batch_toc_operations
        (fun bt => if bt = [⟨"a", "x"⟩] then .ok "\x7b\"results\": []\x7d"
          else if bt = [⟨"b", "y"⟩] then .error "timeout"
          else .ok "\x7b\"results\": [\x7b\"id\": [], \"result\": \x7b\x7d\x7d]\x7d")
        (fun _ => 60) 100 0
        [⟨"a", "x"⟩, ⟨"b", "y"⟩, ⟨"c", "z"⟩]).map BatchResult.id =
      ["a", "b", "c"])
    ∧ BatchResult.mk "a" (jdump (JVal.jobj [])) none ∈
        batch_toc_operations
          (fun bt => if bt = [⟨"a", "x"⟩] then .ok "\x7b\"results\": []\x7d"
            else if bt = [⟨"b", "y"⟩] then .error "timeout"
            else .ok "\x7b\"results\": [\x7b\"id\": [], \"result\": \x7b\x7d\x7d]\x7d")
          (fun _ => 60) 100 0 [⟨"a", "x"⟩, ⟨"b", "y"⟩, ⟨"c", "z"⟩]
    ∧ BatchResult.mk "b" "" (some "timeout") ∈
        batch_toc_operations
          (fun bt => if bt = [⟨"a", "x"⟩] then .ok "\x7b\"results\": []\x7d"
            else if bt = [⟨"b", "y"⟩] then .error "timeout"
            else .ok "\x7b\"results\": [\x7b\"id\": [], \"result\": \x7b\x7d\x7d]\x7d")
          (fun _ => 60) 100 0 [⟨"a", "x"⟩, ⟨"b", "y"⟩, ⟨"c", "z"⟩]
    ∧ BatchResult.mk "c" "" (some "Parse error") ∈
        batch_toc_operations
          (fun bt => if bt = [⟨"a", "x"⟩] then .ok "\x7b\"results\": []\x7d"
            else if bt = [⟨"b", "y"⟩] then .error "timeout"
            else .ok "\x7b\"results\": [\x7b\"id\": [], \"result\": \x7b\x7d\x7d]\x7d")
          (fun _ => 60) 100 0 [⟨"a", "x"⟩, ⟨"b", "y"⟩, ⟨"c", "z"⟩] := by
  refine ⟨?_, ?_, ?_, ?_⟩
  · exact (C8_batch_toc_operations_amended _ _ 100 0 _).1
  · exact (C8_batch_toc_operations_amended _ _ 100 0 _).2.2.1
      [⟨"a", "x"⟩] (by decide) "\x7b\"results\": []\x7d" [] rfl rfl
      ⟨"a", "x"⟩ (by decide) rfl
  · exact (C8_batch_toc_operations_amended _ _ 100 0 _).2.1
      [⟨"b", "y"⟩] (by decide) "timeout" rfl ⟨"b", "y"⟩ (by decide)
  · exact (C8_batch_toc_operations_amended _ _ 100 0 _).2.2.2
      [⟨"c", "z"⟩] (by decide) "\x7b\"results\": [\x7b\"id\": [], \"result\": \x7b\x7d\x7d]\x7d" rfl rfl ⟨"c", "z"⟩ (by decide)


end PageIndex
